import Mathlib

/-
Verification of the bridge-crossing program (crossing.cpp).

The C++ program models people crossing a bridge at night: a Person has a
name, a unique ID and a crossing time; an Area is a std::set of Person
ordered by (time, ID); a CrossingState holds three areas (left bank,
bridge, right bank); CrossingHistory is the list of recorded snapshots;
FastCrossing::cross is the greedy strategy.

Embedding choices:
  - std::set<Person, std::less<Person>>  is embedded as a strictly sorted
    (by personLt) duplicate-free list; insert / erase are the ordered-list
    operations with the set's equivalence (same time and same ID, i.e.
    neither element is less than the other).
  - double is embedded as the rationals.
  - assert(...) is embedded with an error monad (Except CrossErr): every
    assert becomes a throw on its failure branch.  Area::transfer carries
    no assert in the source, so it stays a total function.
  - the two while loops are embedded with explicit fuel; running out of
    fuel is a distinct error (CrossErr.outOfFuel), and the termination
    theorems show the fuel chosen by the embedding is never exhausted.
-/

/-- A person: name, unique ID, crossing time (struct Person). -/
structure Person where
  name : String
  ID : Int
  time : ℚ
deriving DecidableEq

/-- The C++ operator== on Person: compares the IDs only. -/
def personEqCpp (a b : Person) : Bool := a.ID == b.ID

/-- The C++ operator< on Person: by crossing time, ties broken by ID. -/
def personLt (a b : Person) : Prop :=
  a.time < b.time ∨ (a.time = b.time ∧ a.ID < b.ID)

instance (a b : Person) : Decidable (personLt a b) := by
  unfold personLt; exact inferInstance

/-- The std::set equivalence induced by operator< : neither less than the
other, i.e. same time and same ID. -/
def personEquiv (a b : Person) : Prop :=
  a.time = b.time ∧ a.ID = b.ID

instance (a b : Person) : Decidable (personEquiv a b) := by
  unfold personEquiv; exact inferInstance

/-- Ordered insertion into a sorted list, skipping the insertion when an
equivalent element is already present: the behaviour of std::set::insert. -/
def listInsert : List Person → Person → List Person
  | [], p => [p]
  | q :: qs, p =>
    if personLt p q then p :: q :: qs
    else if personLt q p then q :: listInsert qs p
    else q :: qs

/-- Removal of the first element equivalent to the key: the behaviour of
std::set::erase on a duplicate-free sorted list. -/
def listErase : List Person → Person → List Person
  | [], _ => []
  | q :: qs, p => if personEquiv q p then qs else q :: listErase qs p

/-- Errors of the embedding: a failed assert, or fuel exhaustion of an
embedded while loop. -/
inductive CrossErr where
  | assertFail : String → CrossErr
  | outOfFuel : CrossErr
deriving DecidableEq

/-- An area people can be moved to/from (class Area): the std::set of its
people, embedded as the sorted list of members. -/
structure Area where
  people : List Person
deriving DecidableEq

/-- Area built from a vector of people by repeated insertion
(the Area(std::vector) constructor). -/
def Area.ofList (l : List Person) : Area :=
  ⟨l.foldl (fun s p => listInsert s p) []⟩

/-- Area::add_person. -/
def Area.add_person (a : Area) (p : Person) : Area :=
  ⟨listInsert a.people p⟩

/-- Area::empty. -/
def Area.isAreaEmpty (a : Area) : Bool := a.people.length == 0

/-- Area::size. -/
def Area.size (a : Area) : Nat := a.people.length

/-- Area::fastest: asserts the area is non-empty, returns the first
element of the set (the minimum). -/
def Area.fastest (a : Area) : Except CrossErr Person :=
  match a.people.head? with
  | none => throw (CrossErr.assertFail "fastest on empty area")
  | some p => pure p

/-- Area::slowest: asserts the area is non-empty, returns the last
element of the set (the maximum). -/
def Area.slowest (a : Area) : Except CrossErr Person :=
  match a.people.getLast? with
  | none => throw (CrossErr.assertFail "slowest on empty area")
  | some p => pure p

/-- Area::transfer: erase p here, insert p there.  The source carries no
assert here, so the embedding is a total function. -/
def Area.transfer (a : Area) (p : Person) (dst : Area) : Area × Area :=
  (⟨listErase a.people p⟩, ⟨listInsert dst.people p⟩)

/-- The while loop of Area::transfer_all, with explicit fuel: while the
source is non-empty, transfer its slowest member. -/
def Area.transferAllGo : Nat → Area → Area → Except CrossErr (Area × Area)
  | 0, a, dst =>
    if a.people.isEmpty then pure (a, dst) else throw CrossErr.outOfFuel
  | n + 1, a, dst =>
    if a.people.isEmpty then pure (a, dst)
    else do
      let p ← a.slowest
      let pr := a.transfer p dst
      Area.transferAllGo n pr.1 pr.2

/-- Area::transfer_all: move everyone to the other area, slowest first.
The loop runs at most size-many times, which is the fuel supplied. -/
def Area.transfer_all (a dst : Area) : Except CrossErr (Area × Area) :=
  Area.transferAllGo a.people.length a dst

/-- The C++ operator== on Area: std::set operator==, i.e. equal sizes and
elementwise operator== (ID comparison) over the sorted sequences. -/
def areaEqCpp (x y : Area) : Bool :=
  x.people.length == y.people.length &&
    (List.zip x.people y.people).all (fun pq => personEqCpp pq.1 pq.2)

/-- The current state of a crossing (class CrossingState): left bank,
bridge, right bank. -/
structure CrossingState where
  lb : Area
  bridge : Area
  rb : Area
deriving DecidableEq

/-- CrossingState built from a vector of people: all on the left bank
(the CrossingState(std::vector) constructor). -/
def CrossingState.ofPeople (l : List Person) : CrossingState :=
  ⟨Area.ofList l, ⟨[]⟩, ⟨[]⟩⟩

/-- CrossingState::l_to_b: asserts fewer than two people on the bridge,
then transfers p from the left bank to the bridge. -/
def CrossingState.l_to_b (st : CrossingState) (p : Person) :
    Except CrossErr CrossingState :=
  if st.bridge.size < 2 then
    let pr := st.lb.transfer p st.bridge
    pure ⟨pr.1, pr.2, st.rb⟩
  else throw (CrossErr.assertFail "bridge full in l_to_b")

/-- CrossingState::b_to_r: transfers p from the bridge to the right bank;
no capacity assert in the source. -/
def CrossingState.b_to_r (st : CrossingState) (p : Person) : CrossingState :=
  let pr := st.bridge.transfer p st.rb
  ⟨st.lb, pr.1, pr.2⟩

/-- CrossingState::r_to_b: asserts fewer than two people on the bridge,
then transfers p from the right bank to the bridge. -/
def CrossingState.r_to_b (st : CrossingState) (p : Person) :
    Except CrossErr CrossingState :=
  if st.bridge.size < 2 then
    let pr := st.rb.transfer p st.bridge
    pure ⟨st.lb, pr.2, pr.1⟩
  else throw (CrossErr.assertFail "bridge full in r_to_b")

/-- CrossingState::b_to_l: transfers p from the bridge to the left bank;
no capacity assert in the source. -/
def CrossingState.b_to_l (st : CrossingState) (p : Person) : CrossingState :=
  let pr := st.bridge.transfer p st.lb
  ⟨pr.2, pr.1, st.rb⟩

/-- CrossingState::all_b_to_r: empty the bridge onto the right bank. -/
def CrossingState.all_b_to_r (st : CrossingState) :
    Except CrossErr CrossingState := do
  let pr ← st.bridge.transfer_all st.rb
  pure ⟨st.lb, pr.1, pr.2⟩

/-- CrossingState::all_b_to_l: empty the bridge onto the left bank. -/
def CrossingState.all_b_to_l (st : CrossingState) :
    Except CrossErr CrossingState := do
  let pr ← st.bridge.transfer_all st.lb
  pure ⟨pr.2, pr.1, st.rb⟩

/-- CrossingState::speed_across_bridge: 0 for an empty bridge, otherwise
the time of the slowest person on it. -/
def CrossingState.speed_across_bridge (st : CrossingState) : ℚ :=
  match st.bridge.people.getLast? with
  | none => 0
  | some p => p.time

/-- The C++ operator== on CrossingState: the three areas pairwise equal
under the std::set operator==. -/
def stateEqCpp (x y : CrossingState) : Bool :=
  areaEqCpp x.lb y.lb && areaEqCpp x.bridge y.bridge && areaEqCpp x.rb y.rb

/-- The history of crossings (struct CrossingHistory): the list of
recorded snapshots in order. -/
structure CrossingHistory where
  hist : List CrossingState
deriving DecidableEq

/-- CrossingHistory::record: push_back a copy of the state. -/
def CrossingHistory.record (h : CrossingHistory) (st : CrossingState) :
    CrossingHistory :=
  ⟨h.hist ++ [st]⟩

/-- CrossingHistory::total_time: sum the speed_across_bridge of every
recorded snapshot, in order. -/
def CrossingHistory.total_time (h : CrossingHistory) : ℚ :=
  h.hist.foldl (fun t c => t + c.speed_across_bridge) 0

/-- CrossingHistory::visited: does a structurally equal state occur in the
history (std::count with operator==)? -/
def CrossingHistory.visited (h : CrossingHistory) (st : CrossingState) :
    Bool :=
  0 ≠ h.hist.countP (fun c => stateEqCpp c st)

namespace FastCrossing

/-- FastCrossing::fastest_l_to_b: move the fastest person of the left
bank onto the bridge. -/
def fastest_l_to_b (st : CrossingState) : Except CrossErr CrossingState := do
  let p ← st.lb.fastest
  st.l_to_b p

/-- FastCrossing::fastest_r_to_b: move the fastest person of the right
bank onto the bridge. -/
def fastest_r_to_b (st : CrossingState) : Except CrossErr CrossingState := do
  let p ← st.rb.fastest
  st.r_to_b p

/-- FastCrossing::slowest_l_to_b: move the slowest person of the left
bank onto the bridge. -/
def slowest_l_to_b (st : CrossingState) : Except CrossErr CrossingState := do
  let p ← st.lb.slowest
  st.l_to_b p

/-- FastCrossing::retrieve_fastest: send the fastest person on the right
bank back to the left bank, recording two snapshots. -/
def retrieve_fastest (st : CrossingState) (hist : List CrossingState) :
    Except CrossErr (CrossingState × List CrossingState) := do
  let st1 ← fastest_r_to_b st
  let h1 := hist ++ [st1]
  let st2 ← st1.all_b_to_l
  pure (st2, h1 ++ [st2])

/-- FastCrossing::send_slowest: send the two slowest people of the left
bank to the right bank, recording two snapshots. -/
def send_slowest (st : CrossingState) (hist : List CrossingState) :
    Except CrossErr (CrossingState × List CrossingState) := do
  let st1 ← slowest_l_to_b st
  let st2 ← slowest_l_to_b st1
  let h1 := hist ++ [st2]
  let st3 ← st2.all_b_to_r
  pure (st3, h1 ++ [st3])

/-- The main while loop of FastCrossing::cross, with explicit fuel: while
the left bank is non-empty, send the two fastest over, and unless done,
retrieve a courier, send the two slowest over, and if still not done
retrieve the second courier. -/
def crossLoop : Nat → CrossingState → List CrossingState →
    Except CrossErr (CrossingState × List CrossingState)
  | 0, st, hist =>
    if st.lb.people.isEmpty then pure (st, hist) else throw CrossErr.outOfFuel
  | fuel + 1, st, hist =>
    if st.lb.people.isEmpty then pure (st, hist)
    else do
      let st1 ← fastest_l_to_b st
      let st2 ← fastest_l_to_b st1
      let h1 := hist ++ [st2]
      let st3 ← st2.all_b_to_r
      let h2 := h1 ++ [st3]
      if st3.lb.people.isEmpty then pure (st3, h2)
      else do
        let pr4 ← retrieve_fastest st3 h2
        let pr5 ← send_slowest pr4.1 pr4.2
        if pr5.1.lb.people.isEmpty then pure pr5
        else do
          let pr6 ← retrieve_fastest pr5.1 pr5.2
          crossLoop fuel pr6.1 pr6.2

/-- FastCrossing::cross: record the initial state; handle the empty and
the single-person special cases; otherwise run the main loop.  The loop
fuel is the number of people on the left bank, which the termination
theorem shows is sufficient. -/
def cross (initial_state : CrossingState) : Except CrossErr CrossingHistory := do
  let st := initial_state
  let hist : List CrossingState := [st]
  if st.lb.size = 0 then pure ⟨hist⟩
  else if st.lb.size = 1 then do
    let st1 ← fastest_l_to_b st
    let h1 := hist ++ [st1]
    let st2 ← st1.all_b_to_r
    pure ⟨h1 ++ [st2]⟩
  else do
    let pr ← crossLoop st.lb.size st hist
    pure ⟨pr.2⟩

end FastCrossing

/-- The default data set of main(): four people with crossing times
1, 2, 5 and 10. -/
def canonicalPeople : List Person :=
  [⟨"A", 1, 1⟩, ⟨"B", 2, 2⟩, ⟨"C", 3, 5⟩, ⟨"D", 4, 10⟩]

/-- The default initial state of main(): all four on the left bank. -/
def canonicalState : CrossingState := CrossingState.ofPeople canonicalPeople

/-- Projection used in the concrete-schedule theorems: the bridge duration
charged to each snapshot of a history, in order. -/
def historyDurations (h : CrossingHistory) : List ℚ :=
  h.hist.map CrossingState.speed_across_bridge

/-- Projection used in the concrete-schedule theorems: the IDs on the
bridge at each snapshot of a history, in order. -/
def historyBridgeIDs (h : CrossingHistory) : List (List Int) :=
  h.hist.map (fun s => s.bridge.people.map Person.ID)

/-- The history computed by the greedy strategy on the default data set
(main() with no arguments). -/
def canonicalHist : CrossingHistory :=
  ((FastCrossing.cross canonicalState).toOption).getD ⟨[]⟩

/-- All people of a state: the three member lists concatenated. -/
def personsOf (st : CrossingState) : List Person :=
  st.lb.people ++ (st.bridge.people ++ st.rb.people)

/-- Pointwise image of an area under a person renaming. -/
def mapArea (f : Person → Person) (a : Area) : Area := ⟨a.people.map f⟩

/-- Pointwise image of a crossing state under a person renaming. -/
def mapState (f : Person → Person) (st : CrossingState) : CrossingState :=
  ⟨mapArea f st.lb, mapArea f st.bridge, mapArea f st.rb⟩

/-- A renaming that reflects the strict set order on the people of S. -/
def OrdEmb (S : List Person) (f : Person → Person) : Prop :=
  ∀ p ∈ S, ∀ q ∈ S, (personLt (f p) (f q) ↔ personLt p q)

/-- The reachability invariant of a run started from a well-formed state
whose participants are P0: each area is strictly sorted and the three
areas together are a permutation of P0. -/
def StInv (P0 : List Person) (st : CrossingState) : Prop :=
  st.lb.people.Pairwise personLt ∧ st.bridge.people.Pairwise personLt ∧
    st.rb.people.Pairwise personLt ∧ (personsOf st).Perm P0

/-- What every recorded snapshot satisfies: at most two on the bridge,
and the three areas together a permutation of P0. -/
def SnapOK (P0 : List Person) (s : CrossingState) : Prop :=
  s.bridge.people.length ≤ 2 ∧ (personsOf s).Perm P0

/-- A well-formed initial state: left bank strictly sorted (as any
std::set is by construction), bridge and right bank empty. -/
def WFInit (st : CrossingState) : Prop :=
  st.lb.people.Pairwise personLt ∧ st.bridge.people = [] ∧
    st.rb.people = []

instance (st : CrossingState) : Decidable (WFInit st) := by
  unfold WFInit; exact inferInstance

theorem personLt_irrefl (a : Person) : ¬ personLt a a := by
  simp [personLt]

theorem personLt_asymm {a b : Person} (h : personLt a b) : ¬ personLt b a := by
  rcases h with h | ⟨he, hi⟩
  · rintro (h2 | ⟨he2, _⟩)
    · exact absurd (h.trans h2) (lt_irrefl _)
    · exact absurd h (by rw [he2]; exact lt_irrefl _)
  · rintro (h2 | ⟨_, hi2⟩)
    · exact absurd h2 (by rw [he]; exact lt_irrefl _)
    · exact absurd (hi.trans hi2) (lt_irrefl _)

theorem personLt_trans {a b c : Person} (h1 : personLt a b)
    (h2 : personLt b c) : personLt a c := by
  rcases h1 with h1 | ⟨he1, hi1⟩ <;> rcases h2 with h2 | ⟨he2, hi2⟩
  · exact Or.inl (h1.trans h2)
  · exact Or.inl (he2 ▸ h1)
  · exact Or.inl (he1 ▸ h2)
  · exact Or.inr ⟨he1.trans he2, hi1.trans hi2⟩

theorem personEquiv_refl (a : Person) : personEquiv a a := ⟨rfl, rfl⟩

theorem personEquiv_symm {a b : Person} (h : personEquiv a b) :
    personEquiv b a := ⟨h.1.symm, h.2.symm⟩

theorem personEquiv_of_not_lt {a b : Person} (h1 : ¬ personLt a b)
    (h2 : ¬ personLt b a) : personEquiv a b := by
  rcases lt_trichotomy a.time b.time with ht | ht | ht
  · exact absurd (Or.inl ht) h1
  · rcases lt_trichotomy a.ID b.ID with hi | hi | hi
    · exact absurd (Or.inr ⟨ht, hi⟩) h1
    · exact ⟨ht, hi⟩
    · exact absurd (Or.inr ⟨ht.symm, hi⟩) h2
  · exact absurd (Or.inl ht) h2

theorem not_equiv_of_lt {a b : Person} (h : personLt a b) :
    ¬ personEquiv a b := by
  rintro ⟨he, hi⟩
  rcases h with h | ⟨_, h⟩
  · exact absurd h (by rw [he]; exact lt_irrefl _)
  · exact absurd h (by rw [hi]; exact lt_irrefl _)

theorem ne_of_lt_person {a b : Person} (h : personLt a b) : a ≠ b := by
  rintro rfl; exact personLt_irrefl a h

theorem mem_listInsert {l : List Person} {p a : Person}
    (h : a ∈ listInsert l p) : a = p ∨ a ∈ l := by
  induction l with
  | nil => simpa [listInsert] using h
  | cons q qs ih =>
    by_cases h1 : personLt p q
    · simp only [listInsert, if_pos h1, List.mem_cons] at h
      rcases h with h | h | h
      · exact Or.inl h
      · exact Or.inr (by simp [h])
      · exact Or.inr (by simp [h])
    · by_cases h2 : personLt q p
      · simp only [listInsert, if_neg h1, if_pos h2, List.mem_cons] at h
        rcases h with h | h
        · exact Or.inr (by simp [h])
        · rcases ih h with h | h
          · exact Or.inl h
          · exact Or.inr (by simp [h])
      · simp only [listInsert, if_neg h1, if_neg h2] at h
        exact Or.inr h

theorem listInsert_pairwise {l : List Person} (p : Person)
    (h : l.Pairwise personLt) : (listInsert l p).Pairwise personLt := by
  induction l with
  | nil => simp [listInsert]
  | cons q qs ih =>
    rcases List.pairwise_cons.mp h with ⟨hq, hqs⟩
    by_cases h1 : personLt p q
    · simp only [listInsert, if_pos h1]
      refine List.pairwise_cons.mpr ⟨?_, h⟩
      intro b hb
      rcases List.mem_cons.mp hb with rfl | hb
      · exact h1
      · exact personLt_trans h1 (hq b hb)
    · by_cases h2 : personLt q p
      · simp only [listInsert, if_neg h1, if_pos h2]
        refine List.pairwise_cons.mpr ⟨?_, ih hqs⟩
        intro b hb
        rcases mem_listInsert hb with rfl | hb
        · exact h2
        · exact hq b hb
      · simp only [listInsert, if_neg h1, if_neg h2]
        exact h

theorem listInsert_perm {l : List Person} {p : Person}
    (h : ∀ q ∈ l, ¬ personEquiv q p) : (listInsert l p).Perm (p :: l) := by
  induction l with
  | nil => simp [listInsert]
  | cons q qs ih =>
    by_cases h1 : personLt p q
    · simp [listInsert, if_pos h1]
    · by_cases h2 : personLt q p
      · simp only [listInsert, if_neg h1, if_pos h2]
        have hperm := ih (fun a ha => h a (by simp [ha]))
        exact (List.Perm.cons q hperm).trans (List.Perm.swap p q qs)
      · exact absurd (personEquiv_of_not_lt h2 h1)
          (h q (by simp))

theorem listErase_sublist (l : List Person) (p : Person) :
    (listErase l p).Sublist l := by
  induction l with
  | nil => simp [listErase]
  | cons q qs ih =>
    by_cases h : personEquiv q p
    · simp only [listErase, if_pos h]
      exact List.sublist_cons_self q qs
    · simp only [listErase, if_neg h]
      exact List.Sublist.cons₂ q ih

theorem listErase_pairwise {l : List Person} (p : Person)
    (h : l.Pairwise personLt) : (listErase l p).Pairwise personLt :=
  h.sublist (listErase_sublist l p)

theorem listErase_perm {l : List Person} {p : Person}
    (hne : l.Pairwise (fun x y => ¬ personEquiv x y)) (hmem : p ∈ l) :
    l.Perm (p :: listErase l p) := by
  induction l with
  | nil => cases hmem
  | cons q qs ih =>
    rcases List.pairwise_cons.mp hne with ⟨hq, hqs⟩
    by_cases h : personEquiv q p
    · have hqp : q = p := by
        rcases List.mem_cons.mp hmem with rfl | hin
        · rfl
        · exact absurd h (hq p hin)
      subst hqp
      simp [listErase, personEquiv_refl]
    · have hin : p ∈ qs := by
        rcases List.mem_cons.mp hmem with rfl | hin
        · exact absurd (personEquiv_refl p) h
        · exact hin
      simp only [listErase, if_neg h]
      exact (List.Perm.cons q (ih hqs hin)).trans
        (List.Perm.swap p q (listErase qs p))

theorem listErase_length {l : List Person} {p : Person} (hmem : p ∈ l) :
    (listErase l p).length + 1 = l.length := by
  induction l with
  | nil => cases hmem
  | cons q qs ih =>
    by_cases h : personEquiv q p
    · simp [listErase, if_pos h]
    · have hin : p ∈ qs := by
        rcases List.mem_cons.mp hmem with rfl | hin
        · exact absurd (personEquiv_refl p) h
        · exact hin
      simp [listErase, if_neg h, ih hin]

theorem listErase_of_not_mem {l : List Person} {p : Person}
    (h : ∀ q ∈ l, ¬ personEquiv q p) : listErase l p = l := by
  induction l with
  | nil => rfl
  | cons q qs ih =>
    simp only [listErase, if_neg (h q (by simp))]
    rw [ih (fun a ha => h a (by simp [ha]))]

theorem pairwise_not_equiv_of_pairwise_lt {l : List Person}
    (h : l.Pairwise personLt) :
    l.Pairwise (fun x y => ¬ personEquiv x y) :=
  h.imp (fun hab => not_equiv_of_lt hab)

theorem nodup_of_pairwise_lt {l : List Person} (h : l.Pairwise personLt) :
    l.Nodup :=
  h.imp (fun hab => ne_of_lt_person hab)

theorem notEquiv_symm {x y : Person} (h : ¬ personEquiv x y) :
    ¬ personEquiv y x := fun hyx => h (personEquiv_symm hyx)

theorem exBind_ok {α β : Type} (a : α) (f : α → Except CrossErr β) :
    (Except.ok a : Except CrossErr α) >>= f = f a := rfl

theorem exPure {α : Type} (a : α) :
    (pure a : Except CrossErr α) = Except.ok a := rfl

theorem stinv_nonequiv {P0 : List Person} {st : CrossingState}
    (HP : P0.Pairwise personLt) (h : StInv P0 st) :
    (personsOf st).Pairwise (fun x y => ¬ personEquiv x y) :=
  (h.2.2.2.pairwise_iff (fun hxy => notEquiv_symm hxy)).mpr
    (pairwise_not_equiv_of_pairwise_lt HP)

theorem fastest_ok {a : Area} (h : a.people ≠ []) :
    ∃ p, a.fastest = Except.ok p ∧ p ∈ a.people := by
  match hl : a.people with
  | [] => exact absurd hl h
  | q :: qs =>
    refine ⟨q, ?_, by simp [hl]⟩
    simp [Area.fastest, hl, exPure]

theorem slowest_ok {a : Area} (h : a.people ≠ []) :
    ∃ p, a.slowest = Except.ok p ∧ p ∈ a.people := by
  refine ⟨a.people.getLast h, ?_, List.getLast_mem h⟩
  simp [Area.slowest, List.getLast?_eq_getLast a.people h, exPure]

theorem l_to_b_spec {P0 : List Person} {st : CrossingState} {p : Person}
    (HP : P0.Pairwise personLt) (hInv : StInv P0 st)
    (hmem : p ∈ st.lb.people) (hcap : st.bridge.people.length < 2) :
    ∃ st2, st.l_to_b p = Except.ok st2 ∧ StInv P0 st2 ∧
      st2.lb.people.length + 1 = st.lb.people.length ∧
      st2.bridge.people.length = st.bridge.people.length + 1 ∧
      st2.rb = st.rb := by
  obtain ⟨hslb, hsb, hsr, hperm⟩ := hInv
  have hne := stinv_nonequiv HP ⟨hslb, hsb, hsr, hperm⟩
  have hcross : ∀ x ∈ st.lb.people, ∀ y ∈ st.bridge.people ++ st.rb.people,
      ¬ personEquiv x y := (List.pairwise_append.mp hne).2.2
  have hbr : (listInsert st.bridge.people p).Perm (p :: st.bridge.people) :=
    listInsert_perm (fun q hq =>
      notEquiv_symm (hcross p hmem q (by simp [hq])))
  have hlb : st.lb.people.Perm (p :: listErase st.lb.people p) :=
    listErase_perm (pairwise_not_equiv_of_pairwise_lt hslb) hmem
  refine ⟨⟨⟨listErase st.lb.people p⟩, ⟨listInsert st.bridge.people p⟩,
    st.rb⟩, ?_, ⟨?_, ?_, ?_, ?_⟩, ?_, ?_, rfl⟩
  · simp [CrossingState.l_to_b, Area.size, hcap, Area.transfer, exPure]
  · exact listErase_pairwise p hslb
  · exact listInsert_pairwise p hsb
  · exact hsr
  · refine List.Perm.trans ?_ hperm
    have h1 : (listErase st.lb.people p ++
        (listInsert st.bridge.people p ++ st.rb.people)).Perm
        (listErase st.lb.people p ++ (p :: (st.bridge.people ++ st.rb.people))) :=
      List.Perm.append_left _ (List.Perm.append_right _ hbr)
    have h3 : (listErase st.lb.people p ++
        (p :: (st.bridge.people ++ st.rb.people))).Perm
        (p :: (listErase st.lb.people p ++ (st.bridge.people ++ st.rb.people))) :=
      List.perm_middle
    have h4 : (p :: (listErase st.lb.people p ++
        (st.bridge.people ++ st.rb.people))).Perm (personsOf st) :=
      (List.Perm.append_right _ hlb).symm
    exact (h1.trans h3).trans h4
  · exact hlb.length_eq.symm
  · exact hbr.length_eq

theorem r_to_b_spec {P0 : List Person} {st : CrossingState} {p : Person}
    (HP : P0.Pairwise personLt) (hInv : StInv P0 st)
    (hmem : p ∈ st.rb.people) (hcap : st.bridge.people.length < 2) :
    ∃ st2, st.r_to_b p = Except.ok st2 ∧ StInv P0 st2 ∧
      st2.lb = st.lb ∧
      st2.bridge.people.length = st.bridge.people.length + 1 ∧
      st2.rb.people.length + 1 = st.rb.people.length := by
  obtain ⟨hslb, hsb, hsr, hperm⟩ := hInv
  have hne := stinv_nonequiv HP ⟨hslb, hsb, hsr, hperm⟩
  have hsplit := List.pairwise_append.mp hne
  have hsplit2 := List.pairwise_append.mp hsplit.2.1
  have hbr : (listInsert st.bridge.people p).Perm (p :: st.bridge.people) :=
    listInsert_perm (fun q hq => hsplit2.2.2 q hq p hmem)
  have hrb : st.rb.people.Perm (p :: listErase st.rb.people p) :=
    listErase_perm (pairwise_not_equiv_of_pairwise_lt hsr) hmem
  refine ⟨⟨st.lb, ⟨listInsert st.bridge.people p⟩,
    ⟨listErase st.rb.people p⟩⟩, ?_, ⟨hslb, ?_, ?_, ?_⟩, rfl, ?_, ?_⟩
  · simp [CrossingState.r_to_b, Area.size, hcap, Area.transfer, exPure]
  · exact listInsert_pairwise p hsb
  · exact listErase_pairwise p hsr
  · refine List.Perm.trans (List.Perm.append_left _ ?_) hperm
    have h1 : (listInsert st.bridge.people p ++
        listErase st.rb.people p).Perm
        (p :: (st.bridge.people ++ listErase st.rb.people p)) :=
      List.Perm.append_right _ hbr
    have h2 : (p :: (st.bridge.people ++ listErase st.rb.people p)).Perm
        (st.bridge.people ++ (p :: listErase st.rb.people p)) :=
      List.perm_middle.symm
    have h3 : (st.bridge.people ++ (p :: listErase st.rb.people p)).Perm
        (st.bridge.people ++ st.rb.people) :=
      List.Perm.append_left _ hrb.symm
    exact (h1.trans h2).trans h3
  · exact hbr.length_eq
  · exact hrb.length_eq.symm

theorem transferAllGo_spec : ∀ (fuel : Nat) (a dst : Area),
    a.people.Pairwise personLt → dst.people.Pairwise personLt →
    (a.people ++ dst.people).Pairwise (fun x y => ¬ personEquiv x y) →
    a.people.length ≤ fuel →
    ∃ res, Area.transferAllGo fuel a dst = Except.ok res ∧
      res.1.people = [] ∧ res.2.people.Pairwise personLt ∧
      res.2.people.Perm (a.people ++ dst.people) := by
  intro fuel
  induction fuel with
  | zero =>
    intro a dst _ hdst _ hlen
    have ha : a.people = [] :=
      List.eq_nil_of_length_eq_zero (Nat.le_zero.mp hlen)
    refine ⟨(a, dst), ?_, ha, hdst, by simp [ha]⟩
    simp [Area.transferAllGo, List.isEmpty_iff, ha, exPure]
  | succ n ih =>
    intro a dst ha hdst hne hlen
    by_cases hemp : a.people = []
    · refine ⟨(a, dst), ?_, hemp, hdst, by simp [hemp]⟩
      simp [Area.transferAllGo, List.isEmpty_iff, hemp, exPure]
    · obtain ⟨p, hps, hpm⟩ := slowest_ok hemp
      have hsplit := List.pairwise_append.mp hne
      have hpa : a.people.Perm (p :: listErase a.people p) :=
        listErase_perm hsplit.1 hpm
      have hinsp : (listInsert dst.people p).Perm (p :: dst.people) :=
        listInsert_perm (fun q hq =>
          notEquiv_symm (hsplit.2.2 p hpm q hq))
      have hperm1 : (listErase a.people p ++ listInsert dst.people p).Perm
          (a.people ++ dst.people) := by
        have h1 : (listErase a.people p ++ listInsert dst.people p).Perm
            (listErase a.people p ++ (p :: dst.people)) :=
          List.Perm.append_left _ hinsp
        have h2 : (listErase a.people p ++ (p :: dst.people)).Perm
            (p :: (listErase a.people p ++ dst.people)) := List.perm_middle
        have h3 : (p :: (listErase a.people p ++ dst.people)).Perm
            (a.people ++ dst.people) := (List.Perm.append_right _ hpa).symm
        exact (h1.trans h2).trans h3
      have hlen2 : (listErase a.people p).length ≤ n := by
        have := listErase_length hpm
        omega
      obtain ⟨res, hrun, hres1, hres2, hres3⟩ :=
        ih ⟨listErase a.people p⟩ ⟨listInsert dst.people p⟩
          (listErase_pairwise p ha) (listInsert_pairwise p hdst)
          ((hperm1.pairwise_iff (fun hxy => notEquiv_symm hxy)).mpr hne)
          hlen2
      refine ⟨res, ?_, hres1, hres2, hres3.trans hperm1⟩
      simp only [Area.transferAllGo, List.isEmpty_iff]
      rw [if_neg hemp, hps, exBind_ok]
      exact hrun

theorem transfer_all_spec {a dst : Area}
    (ha : a.people.Pairwise personLt) (hdst : dst.people.Pairwise personLt)
    (hne : (a.people ++ dst.people).Pairwise (fun x y => ¬ personEquiv x y)) :
    ∃ res, a.transfer_all dst = Except.ok res ∧
      res.1.people = [] ∧ res.2.people.Pairwise personLt ∧
      res.2.people.Perm (a.people ++ dst.people) :=
  transferAllGo_spec a.people.length a dst ha hdst hne (Nat.le_refl _)

theorem all_b_to_r_spec {P0 : List Person} {st : CrossingState}
    (HP : P0.Pairwise personLt) (hInv : StInv P0 st) :
    ∃ st2, st.all_b_to_r = Except.ok st2 ∧ StInv P0 st2 ∧
      st2.lb = st.lb ∧ st2.bridge.people = [] ∧
      st2.rb.people.Perm (st.bridge.people ++ st.rb.people) := by
  obtain ⟨hslb, hsb, hsr, hperm⟩ := hInv
  have hne := stinv_nonequiv HP ⟨hslb, hsb, hsr, hperm⟩
  have hsplit := List.pairwise_append.mp hne
  obtain ⟨res, hrun, hres1, hres2, hres3⟩ :=
    transfer_all_spec hsb hsr hsplit.2.1
  refine ⟨⟨st.lb, res.1, res.2⟩, ?_, ⟨hslb, ?_, hres2, ?_⟩, rfl, hres1,
    hres3⟩
  · simp only [CrossingState.all_b_to_r]
    rw [hrun, exBind_ok]
    exact exPure _
  · rw [hres1]; exact List.Pairwise.nil
  · show (st.lb.people ++ (res.1.people ++ res.2.people)).Perm P0
    rw [hres1, List.nil_append]
    exact (List.Perm.append_left _ hres3).trans hperm

theorem all_b_to_l_spec {P0 : List Person} {st : CrossingState}
    (HP : P0.Pairwise personLt) (hInv : StInv P0 st) :
    ∃ st2, st.all_b_to_l = Except.ok st2 ∧ StInv P0 st2 ∧
      st2.lb.people.Perm (st.bridge.people ++ st.lb.people) ∧
      st2.bridge.people = [] ∧ st2.rb = st.rb := by
  obtain ⟨hslb, hsb, hsr, hperm⟩ := hInv
  have hne := stinv_nonequiv HP ⟨hslb, hsb, hsr, hperm⟩
  have hsplit := List.pairwise_append.mp hne
  have hcross : (st.bridge.people ++ st.lb.people).Pairwise
      (fun x y => ¬ personEquiv x y) := by
    refine List.pairwise_append.mpr
      ⟨(List.pairwise_append.mp hsplit.2.1).1,
        hsplit.1, fun x hx y hy => ?_⟩
    exact notEquiv_symm (hsplit.2.2 y hy x (by simp [hx]))
  obtain ⟨res, hrun, hres1, hres2, hres3⟩ :=
    transfer_all_spec hsb hslb hcross
  refine ⟨⟨res.2, res.1, st.rb⟩, ?_, ⟨hres2, ?_, hsr, ?_⟩, hres3, hres1,
    rfl⟩
  · simp only [CrossingState.all_b_to_l]
    rw [hrun, exBind_ok]
    exact exPure _
  · rw [hres1]; exact List.Pairwise.nil
  · show (res.2.people ++ (res.1.people ++ st.rb.people)).Perm P0
    rw [hres1, List.nil_append]
    refine List.Perm.trans ?_ hperm
    have h1 : (res.2.people ++ st.rb.people).Perm
        ((st.bridge.people ++ st.lb.people) ++ st.rb.people) :=
      List.Perm.append_right _ hres3
    have h2 : ((st.bridge.people ++ st.lb.people) ++ st.rb.people).Perm
        ((st.lb.people ++ st.bridge.people) ++ st.rb.people) :=
      List.Perm.append_right _ List.perm_append_comm
    have h3 : (st.lb.people ++ st.bridge.people) ++ st.rb.people =
        st.lb.people ++ (st.bridge.people ++ st.rb.people) :=
      List.append_assoc _ _ _
    exact (h1.trans h2).trans (h3 ▸ List.Perm.refl _)

theorem fastest_l_to_b_spec {P0 : List Person} {st : CrossingState}
    (HP : P0.Pairwise personLt) (hInv : StInv P0 st)
    (hne : st.lb.people ≠ []) (hcap : st.bridge.people.length < 2) :
    ∃ st2, FastCrossing.fastest_l_to_b st = Except.ok st2 ∧ StInv P0 st2 ∧
      st2.lb.people.length + 1 = st.lb.people.length ∧
      st2.bridge.people.length = st.bridge.people.length + 1 ∧
      st2.rb = st.rb := by
  obtain ⟨p, hf, hpm⟩ := fastest_ok hne
  obtain ⟨st2, hok, hrest⟩ := l_to_b_spec HP hInv hpm hcap
  refine ⟨st2, ?_, hrest⟩
  simp only [FastCrossing.fastest_l_to_b]
  rw [hf, exBind_ok]
  exact hok

theorem slowest_l_to_b_spec {P0 : List Person} {st : CrossingState}
    (HP : P0.Pairwise personLt) (hInv : StInv P0 st)
    (hne : st.lb.people ≠ []) (hcap : st.bridge.people.length < 2) :
    ∃ st2, FastCrossing.slowest_l_to_b st = Except.ok st2 ∧ StInv P0 st2 ∧
      st2.lb.people.length + 1 = st.lb.people.length ∧
      st2.bridge.people.length = st.bridge.people.length + 1 ∧
      st2.rb = st.rb := by
  obtain ⟨p, hf, hpm⟩ := slowest_ok hne
  obtain ⟨st2, hok, hrest⟩ := l_to_b_spec HP hInv hpm hcap
  refine ⟨st2, ?_, hrest⟩
  simp only [FastCrossing.slowest_l_to_b]
  rw [hf, exBind_ok]
  exact hok

theorem fastest_r_to_b_spec {P0 : List Person} {st : CrossingState}
    (HP : P0.Pairwise personLt) (hInv : StInv P0 st)
    (hne : st.rb.people ≠ []) (hcap : st.bridge.people.length < 2) :
    ∃ st2, FastCrossing.fastest_r_to_b st = Except.ok st2 ∧ StInv P0 st2 ∧
      st2.lb = st.lb ∧
      st2.bridge.people.length = st.bridge.people.length + 1 ∧
      st2.rb.people.length + 1 = st.rb.people.length := by
  obtain ⟨p, hf, hpm⟩ := fastest_ok hne
  obtain ⟨st2, hok, hrest⟩ := r_to_b_spec HP hInv hpm hcap
  refine ⟨st2, ?_, hrest⟩
  simp only [FastCrossing.fastest_r_to_b]
  rw [hf, exBind_ok]
  exact hok

theorem retrieve_fastest_spec {P0 : List Person} {st : CrossingState}
    (hist : List CrossingState)
    (HP : P0.Pairwise personLt) (hInv : StInv P0 st)
    (hbr : st.bridge.people = []) (hne : st.rb.people ≠ []) :
    ∃ stA stB, FastCrossing.retrieve_fastest st hist =
        Except.ok (stB, (hist ++ [stA]) ++ [stB]) ∧
      StInv P0 stA ∧ stA.bridge.people.length = 1 ∧
      StInv P0 stB ∧ stB.bridge.people = [] ∧
      stB.lb.people.length = st.lb.people.length + 1 ∧
      stB.rb.people.length + 1 = st.rb.people.length := by
  have hcap : st.bridge.people.length < 2 := by rw [hbr]; simp
  obtain ⟨stA, hokA, hInvA, hlbA, hbrA, hrbA⟩ :=
    fastest_r_to_b_spec HP hInv hne hcap
  obtain ⟨stB, hokB, hInvB, hlbB, hbrB, hrbB⟩ := all_b_to_l_spec HP hInvA
  refine ⟨stA, stB, ?_, hInvA, by rw [hbrA, hbr]; simp, hInvB, hbrB, ?_, ?_⟩
  · simp only [FastCrossing.retrieve_fastest]
    rw [hokA, exBind_ok, hokB, exBind_ok]
    exact exPure _
  · have := hlbB.length_eq
    rw [List.length_append, hbrA, hbr] at this
    rw [this, hlbA]
    simp only [List.length_nil]
    omega
  · rw [hrbB, hrbA]

theorem send_slowest_spec {P0 : List Person} {st : CrossingState}
    (hist : List CrossingState)
    (HP : P0.Pairwise personLt) (hInv : StInv P0 st)
    (hbr : st.bridge.people = []) (hlen : 2 ≤ st.lb.people.length) :
    ∃ stA stB, FastCrossing.send_slowest st hist =
        Except.ok (stB, (hist ++ [stA]) ++ [stB]) ∧
      StInv P0 stA ∧ stA.bridge.people.length = 2 ∧
      StInv P0 stB ∧ stB.bridge.people = [] ∧
      stB.lb.people.length + 2 = st.lb.people.length ∧
      stB.rb.people.length = st.rb.people.length + 2 := by
  have hcap : st.bridge.people.length < 2 := by rw [hbr]; simp
  have hne1 : st.lb.people ≠ [] := by
    intro h; rw [h] at hlen; simp at hlen
  obtain ⟨st1, hok1, hInv1, hlb1, hbr1, hrb1⟩ :=
    slowest_l_to_b_spec HP hInv hne1 hcap
  have hne2 : st1.lb.people ≠ [] := by
    intro h; rw [h] at hlb1; simp at hlb1; omega
  have hcap2 : st1.bridge.people.length < 2 := by
    rw [hbr1, hbr]; simp
  obtain ⟨stA, hokA, hInvA, hlbA, hbrA, hrbA⟩ :=
    slowest_l_to_b_spec HP hInv1 hne2 hcap2
  obtain ⟨stB, hokB, hInvB, hlbB, hbrB, hrbB⟩ := all_b_to_r_spec HP hInvA
  refine ⟨stA, stB, ?_, hInvA, ?_, hInvB, hbrB, ?_, ?_⟩
  · simp only [FastCrossing.send_slowest]
    rw [hok1, exBind_ok, hokA, exBind_ok, hokB, exBind_ok]
    exact exPure _
  · rw [hbrA, hbr1, hbr]; simp
  · rw [hlbB]; omega
  · have := hrbB.length_eq
    rw [List.length_append, hbrA, hbr1, hbr] at this
    rw [this]
    have h1 : stA.rb = st.rb := by rw [hrbA, hrb1]
    rw [h1]
    simp only [List.length_nil]
    omega

theorem snapOK_of_inv {P0 : List Person} {s : CrossingState}
    (h : StInv P0 s) (hb : s.bridge.people.length ≤ 2) : SnapOK P0 s :=
  ⟨hb, h.2.2.2⟩

theorem crossLoop_spec {P0 : List Person} (HP : P0.Pairwise personLt) :
    ∀ (fuel : Nat) (st : CrossingState) (hist : List CrossingState),
    StInv P0 st → st.bridge.people = [] → 2 ≤ st.lb.people.length →
    st.lb.people.length ≤ fuel →
    ∃ st2 hist2, FastCrossing.crossLoop fuel st hist =
        Except.ok (st2, hist2) ∧
      StInv P0 st2 ∧ st2.lb.people = [] ∧ st2.bridge.people = [] ∧
      (∃ tail2, hist2 = hist ++ tail2 ∧ ∀ s ∈ tail2, SnapOK P0 s) ∧
      hist2.getLast? = some st2 := by
  intro fuel
  induction fuel with
  | zero => intro st hist _ _ hge hle; omega
  | succ n ih =>
    intro st hist hInv hbr hge hle
    have hlbne : st.lb.people ≠ [] := by
      intro h; rw [h] at hge; simp at hge
    have hcond : ¬ (st.lb.people.isEmpty = true) := by
      simpa [List.isEmpty_iff] using hlbne
    have hcap0 : st.bridge.people.length < 2 := by rw [hbr]; simp
    obtain ⟨st1, hok1, hInv1, hlb1, hbr1, hrb1⟩ :=
      fastest_l_to_b_spec HP hInv hlbne hcap0
    have hlbne1 : st1.lb.people ≠ [] := by
      intro h; rw [h] at hlb1; simp at hlb1; omega
    have hcap1 : st1.bridge.people.length < 2 := by rw [hbr1, hbr]; simp
    obtain ⟨st2, hok2, hInv2, hlb2, hbr2, hrb2⟩ :=
      fastest_l_to_b_spec HP hInv1 hlbne1 hcap1
    obtain ⟨st3, hok3, hInv3, hlb3, hbr3, hrb3⟩ := all_b_to_r_spec HP hInv2
    have hbr2len : st2.bridge.people.length = 2 := by
      rw [hbr2, hbr1, hbr]; simp
    have hsn2 : SnapOK P0 st2 := snapOK_of_inv hInv2 (by omega)
    have hsn3 : SnapOK P0 st3 := snapOK_of_inv hInv3 (by rw [hbr3]; simp)
    by_cases hemp3 : st3.lb.people = []
    · have hcond3 : st3.lb.people.isEmpty = true := by
        simp [List.isEmpty_iff, hemp3]
      refine ⟨st3, (hist ++ [st2]) ++ [st3], ?_, hInv3, hemp3, hbr3,
        ⟨[st2, st3], by simp, ?_⟩, List.getLast?_concat _⟩
      · simp only [FastCrossing.crossLoop]
        rw [if_neg hcond, hok1, exBind_ok, hok2, exBind_ok, hok3,
          exBind_ok, if_pos hcond3]
        rfl
      · intro s hs
        rcases List.mem_cons.mp hs with rfl | hs
        · exact hsn2
        · rcases List.mem_cons.mp hs with rfl | hs
          · exact hsn3
          · cases hs
    · have hcond3 : ¬ (st3.lb.people.isEmpty = true) := by
        simpa [List.isEmpty_iff] using hemp3
      have hlb3pos : 1 ≤ st3.lb.people.length :=
        List.length_pos.mpr hemp3
      have hlb3len : st3.lb.people.length + 2 = st.lb.people.length := by
        rw [hlb3]; omega
      have hrb3ne : st3.rb.people ≠ [] := by
        have := hrb3.length_eq
        rw [List.length_append, hbr2len] at this
        intro h; rw [h] at this; simp at this; omega
      obtain ⟨stA, stB, hokR, hInvA, hbrAlen, hInvB, hbrB, hlbBlen,
        hrbBlen⟩ := retrieve_fastest_spec ((hist ++ [st2]) ++ [st3])
          HP hInv3 hbr3 hrb3ne
      have hsnA : SnapOK P0 stA := snapOK_of_inv hInvA (by omega)
      have hsnB : SnapOK P0 stB := snapOK_of_inv hInvB (by rw [hbrB]; simp)
      have hlbB2 : 2 ≤ stB.lb.people.length := by omega
      obtain ⟨stC, stD, hokS, hInvC, hbrClen, hInvD, hbrD, hlbDlen,
        hrbDlen⟩ := send_slowest_spec ((((hist ++ [st2]) ++ [st3]) ++
          [stA]) ++ [stB]) HP hInvB hbrB hlbB2
      have hsnC : SnapOK P0 stC := snapOK_of_inv hInvC (by omega)
      have hsnD : SnapOK P0 stD := snapOK_of_inv hInvD (by rw [hbrD]; simp)
      by_cases hempD : stD.lb.people = []
      · have hcondD : stD.lb.people.isEmpty = true := by
          simp [List.isEmpty_iff, hempD]
        refine ⟨stD, ((((((hist ++ [st2]) ++ [st3]) ++ [stA]) ++ [stB]) ++
          [stC]) ++ [stD]), ?_, hInvD, hempD, hbrD,
          ⟨[st2, st3, stA, stB, stC, stD], by simp, ?_⟩,
          List.getLast?_concat _⟩
        · simp only [FastCrossing.crossLoop]
          rw [if_neg hcond, hok1, exBind_ok, hok2, exBind_ok, hok3,
            exBind_ok, if_neg hcond3, hokR, exBind_ok, hokS, exBind_ok,
            if_pos hcondD]
          rfl
        · intro s hs
          simp only [List.mem_cons, List.not_mem_nil, or_false] at hs
          rcases hs with rfl | rfl | rfl | rfl | rfl | rfl
          · exact hsn2
          · exact hsn3
          · exact hsnA
          · exact hsnB
          · exact hsnC
          · exact hsnD
      · have hcondD : ¬ (stD.lb.people.isEmpty = true) := by
          simpa [List.isEmpty_iff] using hempD
        have hlbDpos : 1 ≤ stD.lb.people.length :=
          List.length_pos.mpr hempD
        have hrbDne : stD.rb.people ≠ [] := by
          intro h; rw [h] at hrbDlen; simp at hrbDlen
        obtain ⟨stE, stF, hokR2, hInvE, hbrElen, hInvF, hbrF, hlbFlen,
          hrbFlen⟩ := retrieve_fastest_spec ((((((hist ++ [st2]) ++
            [st3]) ++ [stA]) ++ [stB]) ++ [stC]) ++ [stD])
            HP hInvD hbrD hrbDne
        have hsnE : SnapOK P0 stE := snapOK_of_inv hInvE (by omega)
        have hsnF : SnapOK P0 stF := snapOK_of_inv hInvF
          (by rw [hbrF]; simp)
        have hge2 : 2 ≤ stF.lb.people.length := by omega
        have hle2 : stF.lb.people.length ≤ n := by omega
        obtain ⟨stZ, histZ, hokZ, hInvZ, hlbZ, hbrZ,
          ⟨tailZ, htailZ, hsnZ⟩, hlastZ⟩ :=
          ih stF ((((((((hist ++ [st2]) ++ [st3]) ++ [stA]) ++ [stB]) ++
            [stC]) ++ [stD]) ++ [stE]) ++ [stF]) hInvF hbrF hge2 hle2
        refine ⟨stZ, histZ, ?_, hInvZ, hlbZ, hbrZ,
          ⟨[st2, st3, stA, stB, stC, stD, stE, stF] ++ tailZ, ?_, ?_⟩,
          hlastZ⟩
        · simp only [FastCrossing.crossLoop]
          rw [if_neg hcond, hok1, exBind_ok, hok2, exBind_ok, hok3,
            exBind_ok, if_neg hcond3, hokR, exBind_ok, hokS, exBind_ok,
            if_neg hcondD, hokR2, exBind_ok]
          exact hokZ
        · rw [htailZ]; simp
        · intro s hs
          simp only [List.mem_append, List.mem_cons, List.not_mem_nil,
            or_false] at hs
          rcases hs with (rfl | rfl | rfl | rfl | rfl | rfl | rfl | rfl) | hs
          · exact hsn2
          · exact hsn3
          · exact hsnA
          · exact hsnB
          · exact hsnC
          · exact hsnD
          · exact hsnE
          · exact hsnF
          · exact hsnZ s hs

theorem stinv_init {init : CrossingState} (hWF : WFInit init) :
    StInv init.lb.people init := by
  refine ⟨hWF.1, ?_, ?_, ?_⟩
  · rw [hWF.2.1]; exact List.Pairwise.nil
  · rw [hWF.2.2]; exact List.Pairwise.nil
  · show (init.lb.people ++ (init.bridge.people ++ init.rb.people)).Perm
      init.lb.people
    rw [hWF.2.1, hWF.2.2]; simp

theorem fin_rb_perm {P0 : List Person} {fin : CrossingState}
    (h : StInv P0 fin) (hl : fin.lb.people = [])
    (hb : fin.bridge.people = []) : fin.rb.people.Perm P0 := by
  have hp := h.2.2.2
  simp only [personsOf, hl, hb, List.nil_append] at hp
  exact hp

theorem cross_spec {init : CrossingState} (hWF : WFInit init) :
    ∃ h, FastCrossing.cross init = Except.ok h ∧
      h.hist.head? = some init ∧
      (∀ s ∈ h.hist, SnapOK init.lb.people s) ∧
      ∃ fin, h.hist.getLast? = some fin ∧ fin.lb.people = [] ∧
        fin.bridge.people = [] ∧ fin.rb.people.Perm init.lb.people := by
  have hInv0 : StInv init.lb.people init := stinv_init hWF
  have hsn0 : SnapOK init.lb.people init :=
    snapOK_of_inv hInv0 (by rw [hWF.2.1]; simp)
  by_cases h0 : init.lb.size = 0
  · have hlb : init.lb.people = [] :=
      List.eq_nil_of_length_eq_zero h0
    refine ⟨⟨[init]⟩, ?_, rfl, ?_, init, rfl, hlb, hWF.2.1, ?_⟩
    · simp only [FastCrossing.cross]
      rw [if_pos h0]
      rfl
    · intro s hs
      rcases List.mem_cons.mp hs with rfl | hs
      · exact hsn0
      · cases hs
    · rw [hWF.2.2, hlb]
  · by_cases h1 : init.lb.size = 1
    · have hlbne : init.lb.people ≠ [] := by
        intro h
        rw [Area.size, h] at h1
        simp at h1
      have hcap : init.bridge.people.length < 2 := by rw [hWF.2.1]; simp
      obtain ⟨st1, hok1, hInv1, hlb1, hbr1, hrb1⟩ :=
        fastest_l_to_b_spec (hWF.1) hInv0 hlbne hcap
      obtain ⟨st2, hok2, hInv2, hlb2, hbr2, hrb2⟩ :=
        all_b_to_r_spec (hWF.1) hInv1
      have hlb1len : st1.lb.people.length = 0 := by
        rw [Area.size] at h1; omega
      have hlb2nil : st2.lb.people = [] := by
        rw [hlb2]; exact List.eq_nil_of_length_eq_zero hlb1len
      refine ⟨⟨([init] ++ [st1]) ++ [st2]⟩, ?_, rfl, ?_, st2,
        List.getLast?_concat _, hlb2nil, hbr2,
        fin_rb_perm hInv2 hlb2nil hbr2⟩
      · simp only [FastCrossing.cross]
        rw [if_neg h0, if_pos h1, hok1, exBind_ok, hok2, exBind_ok]
        rfl
      · intro s hs
        have hsn1 : SnapOK init.lb.people st1 := snapOK_of_inv hInv1
          (by rw [hbr1, hWF.2.1]; simp)
        have hsn2 : SnapOK init.lb.people st2 := snapOK_of_inv hInv2
          (by rw [hbr2]; simp)
        simp only [List.append_assoc, List.singleton_append,
          List.cons_append, List.nil_append, List.mem_cons,
          List.not_mem_nil, or_false] at hs
        rcases hs with rfl | rfl | rfl
        · exact hsn0
        · exact hsn1
        · exact hsn2
    · have hge : 2 ≤ init.lb.people.length := by
        rw [Area.size] at h0 h1; omega
      obtain ⟨stZ, histZ, hokZ, hInvZ, hlbZ, hbrZ,
        ⟨tailZ, htailZ, hsnZ⟩, hlastZ⟩ :=
        crossLoop_spec hWF.1 init.lb.size init [init] hInv0 hWF.2.1 hge
          (Nat.le_refl _)
      refine ⟨⟨histZ⟩, ?_, ?_, ?_, stZ, hlastZ, hlbZ, hbrZ,
        fin_rb_perm hInvZ hlbZ hbrZ⟩
      · simp only [FastCrossing.cross]
        rw [if_neg h0, if_neg h1, hokZ, exBind_ok]
        rfl
      · rw [htailZ]; rfl
      · intro s hs
        rw [htailZ] at hs
        rcases List.mem_append.mp hs with hs | hs
        · rcases List.mem_cons.mp hs with rfl | hs
          · exact hsn0
          · cases hs
        · exact hsnZ s hs

theorem total_time_eq_foldl (h : CrossingHistory) :
    h.total_time = (historyDurations h).foldl (fun t c => t + c) 0 := by
  unfold CrossingHistory.total_time historyDurations
  rw [List.foldl_map]

/-- C1: on the canonical four-participant input with crossing times
1, 2, 5, 10 (all four on the origin bank, bridge and destination empty),
the greedy strategy succeeds and produces a log whose total time is
exactly 17, realizing the schedule: cross the 1-2 pair (cost 2), return
1 (cost 1), cross the 5-10 pair (cost 10), return 2 (cost 2), cross the
1-2 pair again (cost 2); the per-snapshot durations and the bridge
occupancies (by ID) confirm the schedule move by move. -/
theorem C1_canonical_schedule :
    FastCrossing.cross canonicalState = Except.ok canonicalHist ∧
    canonicalHist.total_time = 17 ∧
    historyDurations canonicalHist =
      [0, 2, 0, 1, 0, 10, 0, 2, 0, 2, 0] ∧
    historyBridgeIDs canonicalHist =
      [[], [1, 2], [], [1], [], [3, 4], [], [2], [], [1, 2], []] := by
  have hd : historyDurations canonicalHist =
      [0, 2, 0, 1, 0, 10, 0, 2, 0, 2, 0] := by rfl
  refine ⟨by rfl, ?_, hd, by rfl⟩
  rw [total_time_eq_foldl, hd]
  norm_num

/-- C2: for every well-formed initial state (participants on origin,
bridge and destination empty), the greedy strategy succeeds and in the
final snapshot of its log every participant of the initial state is a
member of the destination bank and nothing else is, while origin and
bridge are empty. -/
theorem C2_round_trip (init : CrossingState) (hWF : WFInit init) :
    ∃ h fin, FastCrossing.cross init = Except.ok h ∧
      h.hist.getLast? = some fin ∧
      fin.lb.people = [] ∧ fin.bridge.people = [] ∧
      (∀ p ∈ init.lb.people, p ∈ fin.rb.people) ∧
      (∀ p ∈ fin.rb.people, p ∈ init.lb.people) := by
  obtain ⟨h, hok, _, _, fin, hlast, hlb, hbr, hperm⟩ := cross_spec hWF
  exact ⟨h, fin, hok, hlast, hlb, hbr,
    fun p hp => hperm.symm.mem_iff.mp hp,
    fun p hp => hperm.mem_iff.mp hp⟩

/-- Witness for C2, at the canonical initial state. -/
theorem C2_round_trip_witness :
    WFInit canonicalState ∧
    ∃ h fin, FastCrossing.cross canonicalState = Except.ok h ∧
      h.hist.getLast? = some fin ∧
      fin.lb.people = [] ∧ fin.bridge.people = [] ∧
      (∀ p ∈ canonicalState.lb.people, p ∈ fin.rb.people) ∧
      (∀ p ∈ fin.rb.people, p ∈ canonicalState.lb.people) :=
  ⟨by decide, C2_round_trip canonicalState (by decide)⟩

/-- C3: for every well-formed initial state with distinct IDs, the greedy
strategy succeeds and every snapshot of its log conserves the number of
participants (sizes of origin, bridge and destination sum to N) and keeps
the three member sets pairwise disjoint (no ID occurs in two banks). -/
theorem C3_conservation (init : CrossingState) (hWF : WFInit init)
    (hids : (init.lb.people.map Person.ID).Nodup) :
    ∃ h, FastCrossing.cross init = Except.ok h ∧
      ∀ s ∈ h.hist,
        s.lb.people.length + s.bridge.people.length +
            s.rb.people.length = init.lb.people.length ∧
        (∀ p ∈ s.lb.people, ∀ q ∈ s.bridge.people, p.ID ≠ q.ID) ∧
        (∀ p ∈ s.lb.people, ∀ q ∈ s.rb.people, p.ID ≠ q.ID) ∧
        (∀ p ∈ s.bridge.people, ∀ q ∈ s.rb.people, p.ID ≠ q.ID) := by
  obtain ⟨h, hok, _, hsnap, _⟩ := cross_spec hWF
  refine ⟨h, hok, fun s hs => ?_⟩
  obtain ⟨_, hperm⟩ := hsnap s hs
  constructor
  · have := hperm.length_eq
    simp only [personsOf, List.length_append] at this
    omega
  · have hnd : ((personsOf s).map Person.ID).Nodup :=
      ((hperm.map Person.ID).nodup_iff).mpr hids
    simp only [personsOf, List.map_append] at hnd
    obtain ⟨hnd1, hnd23, hdisj1⟩ := List.nodup_append.mp hnd
    obtain ⟨hnd2, hnd3, hdisj23⟩ := List.nodup_append.mp hnd23
    refine ⟨fun p hp q hq hpq => ?_, fun p hp q hq hpq => ?_,
      fun p hp q hq hpq => ?_⟩
    · exact hdisj1 (List.mem_map_of_mem Person.ID hp)
        (by rw [hpq]
            exact List.mem_append.mpr
              (Or.inl (List.mem_map_of_mem Person.ID hq)))
    · exact hdisj1 (List.mem_map_of_mem Person.ID hp)
        (by rw [hpq]
            exact List.mem_append.mpr
              (Or.inr (List.mem_map_of_mem Person.ID hq)))
    · exact hdisj23 (List.mem_map_of_mem Person.ID hp)
        (by rw [hpq]; exact List.mem_map_of_mem Person.ID hq)

/-- Witness for C3, at the canonical initial state. -/
theorem C3_conservation_witness :
    (WFInit canonicalState ∧
      (canonicalState.lb.people.map Person.ID).Nodup) ∧
    ∃ h, FastCrossing.cross canonicalState = Except.ok h ∧
      ∀ s ∈ h.hist,
        s.lb.people.length + s.bridge.people.length +
            s.rb.people.length = canonicalState.lb.people.length ∧
        (∀ p ∈ s.lb.people, ∀ q ∈ s.bridge.people, p.ID ≠ q.ID) ∧
        (∀ p ∈ s.lb.people, ∀ q ∈ s.rb.people, p.ID ≠ q.ID) ∧
        (∀ p ∈ s.bridge.people, ∀ q ∈ s.rb.people, p.ID ≠ q.ID) :=
  ⟨⟨by decide, by decide⟩,
    C3_conservation canonicalState (by decide) (by decide)⟩

theorem listInsert_length_le (l : List Person) (p : Person) :
    (listInsert l p).length ≤ l.length + 1 := by
  induction l with
  | nil => simp [listInsert]
  | cons q qs ih =>
    by_cases h1 : personLt p q
    · simp [listInsert, if_pos h1]
    · by_cases h2 : personLt q p
      · simp only [listInsert, if_neg h1, if_pos h2, List.length_cons]
        omega
      · simp [listInsert, if_neg h1, if_neg h2]

theorem exThrow {α : Type} (e : CrossErr) :
    (throw e : Except CrossErr α) = Except.error e := rfl

/-- C4: the bridge never holds more than two people: starting from any
well-formed initial state the greedy strategy succeeds and every recorded
snapshot has at most two people on the bridge; moreover each completed
transfer operation of CrossingState leaves at most two on the bridge
(the two bridge-entering moves enforce it by their capacity assert, and
the two bridge-leaving moves only shrink the bridge). -/
theorem C4_bridge_capacity (init : CrossingState) (hWF : WFInit init) :
    (∃ h, FastCrossing.cross init = Except.ok h ∧
      ∀ s ∈ h.hist, s.bridge.people.length ≤ 2) ∧
    (∀ (st st2 : CrossingState) (p : Person),
      st.l_to_b p = Except.ok st2 → st2.bridge.people.length ≤ 2) ∧
    (∀ (st st2 : CrossingState) (p : Person),
      st.r_to_b p = Except.ok st2 → st2.bridge.people.length ≤ 2) ∧
    (∀ (st : CrossingState) (p : Person), st.bridge.people.length ≤ 2 →
      (st.b_to_r p).bridge.people.length ≤ 2) ∧
    (∀ (st : CrossingState) (p : Person), st.bridge.people.length ≤ 2 →
      (st.b_to_l p).bridge.people.length ≤ 2) := by
  refine ⟨?_, ?_, ?_, ?_, ?_⟩
  · obtain ⟨h, hok, _, hsnap, _⟩ := cross_spec hWF
    exact ⟨h, hok, fun s hs => (hsnap s hs).1⟩
  · intro st st2 p hok
    by_cases hc : st.bridge.size < 2
    · simp only [CrossingState.l_to_b, if_pos hc, Area.transfer, exPure,
        Except.ok.injEq] at hok
      subst hok
      show (listInsert st.bridge.people p).length ≤ 2
      have := listInsert_length_le st.bridge.people p
      rw [Area.size] at hc
      omega
    · rw [CrossingState.l_to_b, if_neg hc, exThrow] at hok
      exact Except.noConfusion hok
  · intro st st2 p hok
    by_cases hc : st.bridge.size < 2
    · simp only [CrossingState.r_to_b, if_pos hc, Area.transfer, exPure,
        Except.ok.injEq] at hok
      subst hok
      show (listInsert st.bridge.people p).length ≤ 2
      have := listInsert_length_le st.bridge.people p
      rw [Area.size] at hc
      omega
    · rw [CrossingState.r_to_b, if_neg hc, exThrow] at hok
      exact Except.noConfusion hok
  · intro st p hb
    show (listErase st.bridge.people p).length ≤ 2
    have := (listErase_sublist st.bridge.people p).length_le
    omega
  · intro st p hb
    show (listErase st.bridge.people p).length ≤ 2
    have := (listErase_sublist st.bridge.people p).length_le
    omega

/-- Witness for C4, at the canonical initial state. -/
theorem C4_bridge_capacity_witness :
    WFInit canonicalState ∧
    ((∃ h, FastCrossing.cross canonicalState = Except.ok h ∧
      ∀ s ∈ h.hist, s.bridge.people.length ≤ 2) ∧
    (∀ (st st2 : CrossingState) (p : Person),
      st.l_to_b p = Except.ok st2 → st2.bridge.people.length ≤ 2) ∧
    (∀ (st st2 : CrossingState) (p : Person),
      st.r_to_b p = Except.ok st2 → st2.bridge.people.length ≤ 2) ∧
    (∀ (st : CrossingState) (p : Person), st.bridge.people.length ≤ 2 →
      (st.b_to_r p).bridge.people.length ≤ 2) ∧
    (∀ (st : CrossingState) (p : Person), st.bridge.people.length ≤ 2 →
      (st.b_to_l p).bridge.people.length ≤ 2)) :=
  ⟨by decide, C4_bridge_capacity canonicalState (by decide)⟩

/-- C5 counterexample: Area::transfer carries no presence check.  With a
person absent from the source area the operation completes normally and
silently inserts the person into the target area, contradicting the
claim that it fails with an invariant violation. -/
theorem C5_transfer_counterexample :
    ((⟨"X", 7, 3⟩ : Person) ∉ (Area.mk []).people) ∧
    (Area.mk []).transfer ⟨"X", 7, 3⟩ (Area.mk []) =
      (Area.mk [], Area.mk [⟨"X", 7, 3⟩]) ∧
    (⟨"X", 7, 3⟩ : Person) ∈
      ((Area.mk []).transfer ⟨"X", 7, 3⟩ (Area.mk [])).2.people := by
  refine ⟨by simp, rfl, ?_⟩
  show (⟨"X", 7, 3⟩ : Person) ∈ [(⟨"X", 7, 3⟩ : Person)]
  simp

/-- C5 amended: Area::transfer performs no presence check: when p has no
equivalent member in the source area the transfer completes anyway,
leaving the source unchanged and inserting p into the target (and p is
then a member of the target whenever no equivalent entry blocked the
insertion); it does not fail. -/
theorem C5_transfer_amended (a dst : Area) (p : Person)
    (habsent : ∀ q ∈ a.people, ¬ personEquiv q p) :
    a.transfer p dst = (a, ⟨listInsert dst.people p⟩) ∧
    ((∀ q ∈ dst.people, ¬ personEquiv q p) →
      p ∈ (a.transfer p dst).2.people) := by
  constructor
  · show ((⟨listErase a.people p⟩ : Area),
      (⟨listInsert dst.people p⟩ : Area)) = (a, ⟨listInsert dst.people p⟩)
    rw [listErase_of_not_mem habsent]
  · intro h2
    show p ∈ listInsert dst.people p
    exact (listInsert_perm h2).mem_iff.mpr (List.mem_cons_self p _)

/-- Witness for the amended C5, at a concrete absent person. -/
theorem C5_transfer_amended_witness :
    (∀ q ∈ (Area.mk []).people, ¬ personEquiv q ⟨"X", 7, 3⟩) ∧
    ((Area.mk []).transfer ⟨"X", 7, 3⟩ (Area.mk [⟨"Y", 1, 5⟩]) =
      (Area.mk [], ⟨listInsert (Area.mk [⟨"Y", 1, 5⟩]).people
        ⟨"X", 7, 3⟩⟩) ∧
    ((∀ q ∈ (Area.mk [⟨"Y", 1, 5⟩]).people,
        ¬ personEquiv q ⟨"X", 7, 3⟩) →
      (⟨"X", 7, 3⟩ : Person) ∈
        ((Area.mk []).transfer ⟨"X", 7, 3⟩
          (Area.mk [⟨"Y", 1, 5⟩])).2.people)) :=
  ⟨by simp, C5_transfer_amended (Area.mk []) (Area.mk [⟨"Y", 1, 5⟩])
    ⟨"X", 7, 3⟩ (by simp)⟩

/-- C7: for every initial state with exactly one participant on the
origin bank (bridge and destination empty), the greedy strategy succeeds
with a log of exactly 3 snapshots, namely the initial state, the
participant on the bridge, and the participant on the destination, and a
total time equal to that participant's crossing time. -/
theorem C7_single_participant (p : Person) :
    ∃ h, FastCrossing.cross ⟨⟨[p]⟩, ⟨[]⟩, ⟨[]⟩⟩ = Except.ok h ∧
      h.hist = [⟨⟨[p]⟩, ⟨[]⟩, ⟨[]⟩⟩, ⟨⟨[]⟩, ⟨[p]⟩, ⟨[]⟩⟩,
        ⟨⟨[]⟩, ⟨[]⟩, ⟨[p]⟩⟩] ∧
      h.hist.length = 3 ∧ h.total_time = p.time := by
  refine ⟨⟨[⟨⟨[p]⟩, ⟨[]⟩, ⟨[]⟩⟩, ⟨⟨[]⟩, ⟨[p]⟩, ⟨[]⟩⟩,
    ⟨⟨[]⟩, ⟨[]⟩, ⟨[p]⟩⟩]⟩, ?_, rfl, rfl, ?_⟩
  · simp [FastCrossing.cross, Area.size, FastCrossing.fastest_l_to_b,
      Area.fastest, CrossingState.l_to_b, Area.transfer, listErase,
      listInsert, personEquiv_refl, CrossingState.all_b_to_r,
      Area.transfer_all, Area.transferAllGo, Area.slowest, exPure,
      exBind_ok]
  · simp [CrossingHistory.total_time, CrossingState.speed_across_bridge,
      List.foldl]

/-- C8: for every well-formed initial state the greedy strategy
terminates: with the loop fuel chosen as the number of participants the
run completes successfully, and in particular never exhausts its fuel
(each full pass strictly decreases the origin bank, by two). -/
theorem C8_termination (init : CrossingState) (hWF : WFInit init) :
    (∃ h, FastCrossing.cross init = Except.ok h) ∧
    FastCrossing.cross init ≠ Except.error CrossErr.outOfFuel := by
  obtain ⟨h, hok, _⟩ := cross_spec hWF
  refine ⟨⟨h, hok⟩, ?_⟩
  rw [hok]
  exact fun hc => Except.noConfusion hc

/-- Witness for C8, at the canonical initial state. -/
theorem C8_termination_witness :
    WFInit canonicalState ∧
    ((∃ h, FastCrossing.cross canonicalState = Except.ok h) ∧
      FastCrossing.cross canonicalState ≠
        Except.error CrossErr.outOfFuel) :=
  ⟨by decide, C8_termination canonicalState (by decide)⟩

/-- C9: for every well-formed initial state no contract-violation branch
inside the greedy strategy is reached: the run never ends in an assert
failure (every capacity assert of l_to_b and r_to_b finds fewer than two
people on the bridge, and every fastest or slowest call is made on a
non-empty area). -/
theorem C9_no_contract_violation (init : CrossingState)
    (hWF : WFInit init) :
    ∀ msg, FastCrossing.cross init ≠
      Except.error (CrossErr.assertFail msg) := by
  obtain ⟨h, hok, _⟩ := cross_spec hWF
  intro msg hc
  rw [hok] at hc
  exact Except.noConfusion hc

/-- Witness for C9, at the canonical initial state. -/
theorem C9_no_contract_violation_witness :
    WFInit canonicalState ∧
    ∀ msg, FastCrossing.cross canonicalState ≠
      Except.error (CrossErr.assertFail msg) :=
  ⟨by decide, C9_no_contract_violation canonicalState (by decide)⟩

/-- C10 counterexample: two validly sorted areas whose member ID
multisets agree (both hold IDs 1 and 2) but whose crossing times differ
in a way that reverses the speed order; the C++ Area operator== (and the
CrossingState operator== built on it) declares them unequal, because it
compares the sorted sequences elementwise by ID.  Agreement of the id
partition therefore does not imply structural equality. -/
theorem C10_id_equality_counterexample :
    personEqCpp ⟨"A", 5, 1⟩ ⟨"B", 5, 9⟩ = true ∧
    (Area.mk [⟨"P", 1, 1⟩, ⟨"Q", 2, 2⟩]).people.Pairwise personLt ∧
    (Area.mk [⟨"Q", 2, 1⟩, ⟨"P", 1, 2⟩]).people.Pairwise personLt ∧
    ((Area.mk [⟨"P", 1, 1⟩, ⟨"Q", 2, 2⟩]).people.map Person.ID).Perm
      ((Area.mk [⟨"Q", 2, 1⟩, ⟨"P", 1, 2⟩]).people.map Person.ID) ∧
    areaEqCpp (Area.mk [⟨"P", 1, 1⟩, ⟨"Q", 2, 2⟩])
      (Area.mk [⟨"Q", 2, 1⟩, ⟨"P", 1, 2⟩]) = false ∧
    stateEqCpp ⟨⟨[⟨"P", 1, 1⟩, ⟨"Q", 2, 2⟩]⟩, ⟨[]⟩, ⟨[]⟩⟩
      ⟨⟨[⟨"Q", 2, 1⟩, ⟨"P", 1, 2⟩]⟩, ⟨[]⟩, ⟨[]⟩⟩ = false := by
  refine ⟨by decide, by decide, by decide, ?_, by decide, by decide⟩
  show ([1, 2] : List Int).Perm [2, 1]
  exact List.Perm.swap 2 1 []

theorem areaEqCpp_iff_aux : ∀ (xs ys : List Person),
    areaEqCpp ⟨xs⟩ ⟨ys⟩ = true ↔ xs.map Person.ID = ys.map Person.ID := by
  intro xs
  induction xs with
  | nil =>
    intro ys
    cases ys with
    | nil => simp [areaEqCpp]
    | cons b bs => simp [areaEqCpp]
  | cons a as ih =>
    intro ys
    cases ys with
    | nil => simp [areaEqCpp]
    | cons b bs =>
      have hih := ih bs
      simp only [areaEqCpp, personEqCpp, List.length_cons,
        List.zip_cons_cons, List.all_cons, Bool.and_eq_true, beq_iff_eq,
        List.map_cons, List.cons.injEq] at hih ⊢
      constructor
      · rintro ⟨hlen, hab, hall⟩
        exact ⟨hab, hih.mp ⟨by omega, hall⟩⟩
      · rintro ⟨hab, htail⟩
        obtain ⟨hlen, hall⟩ := hih.mpr htail
        exact ⟨by omega, hab, hall⟩

/-- C10 amended: Person operator== compares only the ID field (equal IDs
give equality whatever the names and times), and consequently Area and
CrossingState structural equality hold exactly when the speed-sorted
member sequences agree elementwise on ID — equality can therefore hold
between states whose members have different names or times, but mere
agreement of the member id sets does not suffice when differing times
reorder the sequences. -/
theorem C10_id_equality_amended :
    (∀ p q : Person, personEqCpp p q = true ↔ p.ID = q.ID) ∧
    (∀ x y : Area, areaEqCpp x y = true ↔
      x.people.map Person.ID = y.people.map Person.ID) ∧
    (∀ x y : CrossingState, stateEqCpp x y = true ↔
      (x.lb.people.map Person.ID = y.lb.people.map Person.ID ∧
        x.bridge.people.map Person.ID = y.bridge.people.map Person.ID ∧
        x.rb.people.map Person.ID = y.rb.people.map Person.ID)) := by
  have harea : ∀ x y : Area, areaEqCpp x y = true ↔
      x.people.map Person.ID = y.people.map Person.ID :=
    fun x y => areaEqCpp_iff_aux x.people y.people
  refine ⟨fun p q => ?_, harea, fun x y => ?_⟩
  · simp [personEqCpp]
  · simp only [stateEqCpp, Bool.and_eq_true]
    rw [harea, harea, harea]
    tauto

theorem personEquiv_iff_not_lt {a b : Person} :
    personEquiv a b ↔ ¬ personLt a b ∧ ¬ personLt b a := by
  constructor
  · intro h
    exact ⟨fun hl => not_equiv_of_lt hl h,
      fun hl => not_equiv_of_lt hl (personEquiv_symm h)⟩
  · intro ⟨h1, h2⟩
    exact personEquiv_of_not_lt h1 h2

theorem ordEmb_equiv {S : List Person} {f : Person → Person}
    (hf : OrdEmb S f) {p q : Person} (hp : p ∈ S) (hq : q ∈ S) :
    personEquiv (f p) (f q) ↔ personEquiv p q := by
  rw [personEquiv_iff_not_lt, personEquiv_iff_not_lt,
    hf p hp q hq, hf q hq p hp]

theorem listInsert_map {S : List Person} {f : Person → Person}
    (hf : OrdEmb S f) : ∀ {l : List Person} {p : Person},
    (∀ q ∈ l, q ∈ S) → p ∈ S →
    listInsert (l.map f) (f p) = (listInsert l p).map f := by
  intro l
  induction l with
  | nil => intro p _ _; simp [listInsert]
  | cons q qs ih =>
    intro p hl hp
    have hq : q ∈ S := hl q (by simp)
    have hqs : ∀ r ∈ qs, r ∈ S := fun r hr => hl r (by simp [hr])
    by_cases h1 : personLt p q
    · have h1f : personLt (f p) (f q) := (hf p hp q hq).mpr h1
      simp [listInsert, if_pos h1, if_pos h1f]
    · have h1f : ¬ personLt (f p) (f q) := fun hc =>
        h1 ((hf p hp q hq).mp hc)
      by_cases h2 : personLt q p
      · have h2f : personLt (f q) (f p) := (hf q hq p hp).mpr h2
        simp only [List.map_cons, listInsert, if_neg h1, if_pos h2,
          if_neg h1f, if_pos h2f]
        rw [ih hqs hp]
      · have h2f : ¬ personLt (f q) (f p) := fun hc =>
          h2 ((hf q hq p hp).mp hc)
        simp [listInsert, if_neg h1, if_neg h2, if_neg h1f, if_neg h2f]

theorem listErase_map {S : List Person} {f : Person → Person}
    (hf : OrdEmb S f) : ∀ {l : List Person} {p : Person},
    (∀ q ∈ l, q ∈ S) → p ∈ S →
    listErase (l.map f) (f p) = (listErase l p).map f := by
  intro l
  induction l with
  | nil => intro p _ _; simp [listErase]
  | cons q qs ih =>
    intro p hl hp
    have hq : q ∈ S := hl q (by simp)
    have hqs : ∀ r ∈ qs, r ∈ S := fun r hr => hl r (by simp [hr])
    by_cases h1 : personEquiv q p
    · have h1f : personEquiv (f q) (f p) := (ordEmb_equiv hf hq hp).mpr h1
      simp [listErase, if_pos h1, if_pos h1f]
    · have h1f : ¬ personEquiv (f q) (f p) := fun hc =>
        h1 ((ordEmb_equiv hf hq hp).mp hc)
      simp only [List.map_cons, listErase, if_neg h1, if_neg h1f]
      rw [ih hqs hp]

theorem fastest_map (f : Person → Person) (a : Area) :
    (mapArea f a).fastest = a.fastest.map f := by
  simp only [Area.fastest, mapArea]
  rw [List.head?_map]
  cases a.people.head? <;> rfl

theorem slowest_map (f : Person → Person) (a : Area) :
    (mapArea f a).slowest = a.slowest.map f := by
  simp only [Area.slowest, mapArea]
  rw [List.getLast?_map]
  cases a.people.getLast? <;> rfl

theorem mem_personsOf_lb {st : CrossingState} {q : Person}
    (h : q ∈ st.lb.people) : q ∈ personsOf st := by
  simp [personsOf, List.mem_append, h]

theorem mem_personsOf_bridge {st : CrossingState} {q : Person}
    (h : q ∈ st.bridge.people) : q ∈ personsOf st := by
  simp [personsOf, List.mem_append, h]

theorem mem_personsOf_rb {st : CrossingState} {q : Person}
    (h : q ∈ st.rb.people) : q ∈ personsOf st := by
  simp [personsOf, List.mem_append, h]

theorem l_to_b_map_ok {S : List Person} {f : Person → Person}
    (hf : OrdEmb S f) {st st2 : CrossingState} {p : Person}
    (hok : st.l_to_b p = Except.ok st2)
    (hsub : ∀ q ∈ personsOf st, q ∈ S) (hp : p ∈ S) :
    (mapState f st).l_to_b (f p) = Except.ok (mapState f st2) := by
  by_cases hc : st.bridge.size < 2
  · simp only [CrossingState.l_to_b, if_pos hc, Area.transfer, exPure,
      Except.ok.injEq] at hok
    subst hok
    have hcf : (mapState f st).bridge.size < 2 := by
      simp only [mapState, mapArea, Area.size, List.length_map]
      rw [Area.size] at hc
      exact hc
    have he : listErase (st.lb.people.map f) (f p) =
        (listErase st.lb.people p).map f :=
      listErase_map hf (fun q hq => hsub q (mem_personsOf_lb hq)) hp
    have hi : listInsert (st.bridge.people.map f) (f p) =
        (listInsert st.bridge.people p).map f :=
      listInsert_map hf (fun q hq => hsub q (mem_personsOf_bridge hq)) hp
    have hc2 : (Area.mk (st.bridge.people.map f)).size < 2 := by
      simp only [Area.size, List.length_map]
      rw [Area.size] at hc
      exact hc
    simp only [CrossingState.l_to_b, Area.transfer, exPure,
      Except.ok.injEq, mapState, mapArea]
    rw [he, hi, if_pos hc2]
  · rw [CrossingState.l_to_b, if_neg hc, exThrow] at hok
    exact Except.noConfusion hok

theorem r_to_b_map_ok {S : List Person} {f : Person → Person}
    (hf : OrdEmb S f) {st st2 : CrossingState} {p : Person}
    (hok : st.r_to_b p = Except.ok st2)
    (hsub : ∀ q ∈ personsOf st, q ∈ S) (hp : p ∈ S) :
    (mapState f st).r_to_b (f p) = Except.ok (mapState f st2) := by
  by_cases hc : st.bridge.size < 2
  · simp only [CrossingState.r_to_b, if_pos hc, Area.transfer, exPure,
      Except.ok.injEq] at hok
    subst hok
    have hcf : (mapState f st).bridge.size < 2 := by
      simp only [mapState, mapArea, Area.size, List.length_map]
      rw [Area.size] at hc
      exact hc
    have he : listErase (st.rb.people.map f) (f p) =
        (listErase st.rb.people p).map f :=
      listErase_map hf (fun q hq => hsub q (mem_personsOf_rb hq)) hp
    have hi : listInsert (st.bridge.people.map f) (f p) =
        (listInsert st.bridge.people p).map f :=
      listInsert_map hf (fun q hq => hsub q (mem_personsOf_bridge hq)) hp
    have hc2 : (Area.mk (st.bridge.people.map f)).size < 2 := by
      simp only [Area.size, List.length_map]
      rw [Area.size] at hc
      exact hc
    simp only [CrossingState.r_to_b, Area.transfer, exPure,
      Except.ok.injEq, mapState, mapArea]
    rw [he, hi, if_pos hc2]
  · rw [CrossingState.r_to_b, if_neg hc, exThrow] at hok
    exact Except.noConfusion hok

theorem l_to_b_mem_ok {st st2 : CrossingState} {p : Person}
    (hok : st.l_to_b p = Except.ok st2) :
    ∀ q ∈ personsOf st2, q = p ∨ q ∈ personsOf st := by
  by_cases hc : st.bridge.size < 2
  · simp only [CrossingState.l_to_b, if_pos hc, Area.transfer, exPure,
      Except.ok.injEq] at hok
    subst hok
    intro q hq
    simp only [personsOf, List.mem_append] at hq ⊢
    rcases hq with hq | hq | hq
    · exact Or.inr (Or.inl ((listErase_sublist _ _).mem hq))
    · rcases mem_listInsert hq with rfl | hq
      · exact Or.inl rfl
      · exact Or.inr (Or.inr (Or.inl hq))
    · exact Or.inr (Or.inr (Or.inr hq))
  · rw [CrossingState.l_to_b, if_neg hc, exThrow] at hok
    exact Except.noConfusion hok

theorem r_to_b_mem_ok {st st2 : CrossingState} {p : Person}
    (hok : st.r_to_b p = Except.ok st2) :
    ∀ q ∈ personsOf st2, q = p ∨ q ∈ personsOf st := by
  by_cases hc : st.bridge.size < 2
  · simp only [CrossingState.r_to_b, if_pos hc, Area.transfer, exPure,
      Except.ok.injEq] at hok
    subst hok
    intro q hq
    simp only [personsOf, List.mem_append] at hq ⊢
    rcases hq with hq | hq | hq
    · exact Or.inr (Or.inl hq)
    · rcases mem_listInsert hq with rfl | hq
      · exact Or.inl rfl
      · exact Or.inr (Or.inr (Or.inl hq))
    · exact Or.inr (Or.inr (Or.inr ((listErase_sublist _ _).mem hq)))
  · rw [CrossingState.r_to_b, if_neg hc, exThrow] at hok
    exact Except.noConfusion hok

theorem exMap_ok {α β : Type} (a : α) (f : α → β) :
    (Except.ok a : Except CrossErr α).map f = Except.ok (f a) := rfl

theorem transferAllGo_map_ok {S : List Person} {f : Person → Person}
    (hf : OrdEmb S f) :
    ∀ (fuel : Nat) (a dst : Area) (res : Area × Area),
    Area.transferAllGo fuel a dst = Except.ok res →
    (∀ q ∈ a.people, q ∈ S) → (∀ q ∈ dst.people, q ∈ S) →
    Area.transferAllGo fuel (mapArea f a) (mapArea f dst) =
      Except.ok (mapArea f res.1, mapArea f res.2) := by
  intro fuel
  induction fuel with
  | zero =>
    intro a dst res hok ha hdst
    by_cases hemp : a.people = []
    · have h1 : a.people.isEmpty = true := by
        simp [List.isEmpty_iff, hemp]
      have h2 : (mapArea f a).people.isEmpty = true := by
        simp [mapArea, List.isEmpty_iff, hemp]
      rw [Area.transferAllGo, if_pos h1, exPure] at hok
      simp only [Except.ok.injEq] at hok
      subst hok
      rw [Area.transferAllGo, if_pos h2, exPure]
    · have h1 : ¬ (a.people.isEmpty = true) := by
        simpa [List.isEmpty_iff] using hemp
      rw [Area.transferAllGo, if_neg h1, exThrow] at hok
      exact Except.noConfusion hok
  | succ n ih =>
    intro a dst res hok ha hdst
    by_cases hemp : a.people = []
    · have h1 : a.people.isEmpty = true := by
        simp [List.isEmpty_iff, hemp]
      have h2 : (mapArea f a).people.isEmpty = true := by
        simp [mapArea, List.isEmpty_iff, hemp]
      simp only [Area.transferAllGo] at hok ⊢
      rw [if_pos h1, exPure] at hok
      simp only [Except.ok.injEq] at hok
      subst hok
      rw [if_pos h2, exPure]
    · have h1 : ¬ (a.people.isEmpty = true) := by
        simpa [List.isEmpty_iff] using hemp
      have h2 : ¬ ((mapArea f a).people.isEmpty = true) := by
        simp [mapArea, List.isEmpty_iff, hemp]
      obtain ⟨p, hps, hpm⟩ := slowest_ok hemp
      simp only [Area.transferAllGo] at hok ⊢
      rw [if_neg h1, hps, exBind_ok] at hok
      simp only [Area.transfer] at hok
      have hsubE : ∀ q ∈ listErase a.people p, q ∈ S :=
        fun q hq => ha q ((listErase_sublist _ _).mem hq)
      have hsubI : ∀ q ∈ listInsert dst.people p, q ∈ S := by
        intro q hq
        rcases mem_listInsert hq with rfl | hq
        · exact ha _ hpm
        · exact hdst q hq
      have hih := ih ⟨listErase a.people p⟩ ⟨listInsert dst.people p⟩
        res hok hsubE hsubI
      rw [if_neg h2, slowest_map, hps, exMap_ok, exBind_ok]
      simp only [Area.transfer, mapArea]
      rw [listErase_map hf ha (ha p hpm), listInsert_map hf hdst (ha p hpm)]
      simp only [mapArea] at hih
      exact hih

theorem transferAllGo_mem_ok :
    ∀ (fuel : Nat) (a dst : Area) (res : Area × Area),
    Area.transferAllGo fuel a dst = Except.ok res →
    ∀ q, (q ∈ res.1.people ∨ q ∈ res.2.people) →
      (q ∈ a.people ∨ q ∈ dst.people) := by
  intro fuel
  induction fuel with
  | zero =>
    intro a dst res hok q hq
    by_cases hemp : a.people = []
    · have h1 : a.people.isEmpty = true := by
        simp [List.isEmpty_iff, hemp]
      rw [Area.transferAllGo, if_pos h1, exPure] at hok
      simp only [Except.ok.injEq] at hok
      subst hok
      exact hq
    · have h1 : ¬ (a.people.isEmpty = true) := by
        simpa [List.isEmpty_iff] using hemp
      rw [Area.transferAllGo, if_neg h1, exThrow] at hok
      exact Except.noConfusion hok
  | succ n ih =>
    intro a dst res hok q hq
    by_cases hemp : a.people = []
    · have h1 : a.people.isEmpty = true := by
        simp [List.isEmpty_iff, hemp]
      simp only [Area.transferAllGo] at hok
      rw [if_pos h1, exPure] at hok
      simp only [Except.ok.injEq] at hok
      subst hok
      exact hq
    · have h1 : ¬ (a.people.isEmpty = true) := by
        simpa [List.isEmpty_iff] using hemp
      obtain ⟨p, hps, hpm⟩ := slowest_ok hemp
      simp only [Area.transferAllGo] at hok
      rw [if_neg h1, hps, exBind_ok] at hok
      simp only [Area.transfer] at hok
      have := ih ⟨listErase a.people p⟩ ⟨listInsert dst.people p⟩
        res hok q hq
      rcases this with hq2 | hq2
      · exact Or.inl ((listErase_sublist _ _).mem hq2)
      · rcases mem_listInsert hq2 with rfl | hq2
        · exact Or.inl hpm
        · exact Or.inr hq2

theorem exBind_err {α β : Type} (e : CrossErr)
    (f : α → Except CrossErr β) :
    (Except.error e : Except CrossErr α) >>= f = Except.error e := rfl

theorem all_b_to_r_map_ok {S : List Person} {f : Person → Person}
    (hf : OrdEmb S f) {st st2 : CrossingState}
    (hok : st.all_b_to_r = Except.ok st2)
    (hsub : ∀ q ∈ personsOf st, q ∈ S) :
    (mapState f st).all_b_to_r = Except.ok (mapState f st2) := by
  cases hta : st.bridge.transfer_all st.rb with
  | error e =>
    simp only [CrossingState.all_b_to_r] at hok
    rw [hta, exBind_err] at hok
    exact Except.noConfusion hok
  | ok pr =>
    simp only [CrossingState.all_b_to_r] at hok ⊢
    rw [hta, exBind_ok, exPure] at hok
    simp only [Except.ok.injEq] at hok
    subst hok
    rw [Area.transfer_all] at hta
    have hta2 := transferAllGo_map_ok hf st.bridge.people.length
      st.bridge st.rb pr hta
      (fun q hq => hsub q (mem_personsOf_bridge hq))
      (fun q hq => hsub q (mem_personsOf_rb hq))
    have hlen : (mapArea f st.bridge).people.length =
        st.bridge.people.length := by simp [mapArea]
    simp only [mapState]
    rw [Area.transfer_all, hlen, hta2, exBind_ok]
    rfl

theorem all_b_to_l_map_ok {S : List Person} {f : Person → Person}
    (hf : OrdEmb S f) {st st2 : CrossingState}
    (hok : st.all_b_to_l = Except.ok st2)
    (hsub : ∀ q ∈ personsOf st, q ∈ S) :
    (mapState f st).all_b_to_l = Except.ok (mapState f st2) := by
  cases hta : st.bridge.transfer_all st.lb with
  | error e =>
    simp only [CrossingState.all_b_to_l] at hok
    rw [hta, exBind_err] at hok
    exact Except.noConfusion hok
  | ok pr =>
    simp only [CrossingState.all_b_to_l] at hok ⊢
    rw [hta, exBind_ok, exPure] at hok
    simp only [Except.ok.injEq] at hok
    subst hok
    rw [Area.transfer_all] at hta
    have hta2 := transferAllGo_map_ok hf st.bridge.people.length
      st.bridge st.lb pr hta
      (fun q hq => hsub q (mem_personsOf_bridge hq))
      (fun q hq => hsub q (mem_personsOf_lb hq))
    have hlen : (mapArea f st.bridge).people.length =
        st.bridge.people.length := by simp [mapArea]
    simp only [mapState]
    rw [Area.transfer_all, hlen, hta2, exBind_ok]
    rfl

theorem all_b_to_r_mem_ok {st st2 : CrossingState}
    (hok : st.all_b_to_r = Except.ok st2) :
    ∀ q ∈ personsOf st2, q ∈ personsOf st := by
  cases hta : st.bridge.transfer_all st.rb with
  | error e =>
    simp only [CrossingState.all_b_to_r] at hok
    rw [hta, exBind_err] at hok
    exact Except.noConfusion hok
  | ok pr =>
    simp only [CrossingState.all_b_to_r] at hok
    rw [hta, exBind_ok, exPure] at hok
    simp only [Except.ok.injEq] at hok
    subst hok
    rw [Area.transfer_all] at hta
    intro q hq
    simp only [personsOf, List.mem_append] at hq ⊢
    rcases hq with hq | hq | hq
    · exact Or.inl hq
    · rcases transferAllGo_mem_ok _ _ _ _ hta q (Or.inl hq) with h | h
      · exact Or.inr (Or.inl h)
      · exact Or.inr (Or.inr h)
    · rcases transferAllGo_mem_ok _ _ _ _ hta q (Or.inr hq) with h | h
      · exact Or.inr (Or.inl h)
      · exact Or.inr (Or.inr h)

theorem all_b_to_l_mem_ok {st st2 : CrossingState}
    (hok : st.all_b_to_l = Except.ok st2) :
    ∀ q ∈ personsOf st2, q ∈ personsOf st := by
  cases hta : st.bridge.transfer_all st.lb with
  | error e =>
    simp only [CrossingState.all_b_to_l] at hok
    rw [hta, exBind_err] at hok
    exact Except.noConfusion hok
  | ok pr =>
    simp only [CrossingState.all_b_to_l] at hok
    rw [hta, exBind_ok, exPure] at hok
    simp only [Except.ok.injEq] at hok
    subst hok
    rw [Area.transfer_all] at hta
    intro q hq
    simp only [personsOf, List.mem_append] at hq ⊢
    rcases hq with hq | hq | hq
    · rcases transferAllGo_mem_ok _ _ _ _ hta q (Or.inr hq) with h | h
      · exact Or.inr (Or.inl h)
      · exact Or.inl h
    · rcases transferAllGo_mem_ok _ _ _ _ hta q (Or.inl hq) with h | h
      · exact Or.inr (Or.inl h)
      · exact Or.inl h
    · exact Or.inr (Or.inr hq)

theorem fastest_l_to_b_map_ok {S : List Person} {f : Person → Person}
    (hf : OrdEmb S f) {st st2 : CrossingState}
    (hok : FastCrossing.fastest_l_to_b st = Except.ok st2)
    (hsub : ∀ q ∈ personsOf st, q ∈ S) :
    FastCrossing.fastest_l_to_b (mapState f st) =
      Except.ok (mapState f st2) := by
  cases hl : st.lb.people with
  | nil =>
    have : st.lb.fastest = Except.error
        (CrossErr.assertFail "fastest on empty area") := by
      simp [Area.fastest, hl, exThrow]
    simp only [FastCrossing.fastest_l_to_b] at hok
    rw [this, exBind_err] at hok
    exact Except.noConfusion hok
  | cons q qs =>
    have hfq : st.lb.fastest = Except.ok q := by
      simp [Area.fastest, hl, exPure]
    simp only [FastCrossing.fastest_l_to_b] at hok ⊢
    rw [hfq, exBind_ok] at hok
    have hqS : q ∈ S := hsub q (mem_personsOf_lb (by simp [hl]))
    rw [show (mapState f st).lb.fastest = Except.ok (f q) from by
      rw [show (mapState f st).lb = mapArea f st.lb from rfl,
        fastest_map, hfq, exMap_ok], exBind_ok]
    exact l_to_b_map_ok hf hok hsub hqS

theorem fastest_l_to_b_mem_ok {st st2 : CrossingState}
    (hok : FastCrossing.fastest_l_to_b st = Except.ok st2) :
    ∀ q ∈ personsOf st2, q ∈ personsOf st := by
  cases hl : st.lb.people with
  | nil =>
    have : st.lb.fastest = Except.error
        (CrossErr.assertFail "fastest on empty area") := by
      simp [Area.fastest, hl, exThrow]
    simp only [FastCrossing.fastest_l_to_b] at hok
    rw [this, exBind_err] at hok
    exact Except.noConfusion hok
  | cons q qs =>
    have hfq : st.lb.fastest = Except.ok q := by
      simp [Area.fastest, hl, exPure]
    simp only [FastCrossing.fastest_l_to_b] at hok
    rw [hfq, exBind_ok] at hok
    intro r hr
    rcases l_to_b_mem_ok hok r hr with rfl | hr
    · exact mem_personsOf_lb (by simp [hl])
    · exact hr

theorem slowest_l_to_b_map_ok {S : List Person} {f : Person → Person}
    (hf : OrdEmb S f) {st st2 : CrossingState}
    (hok : FastCrossing.slowest_l_to_b st = Except.ok st2)
    (hsub : ∀ q ∈ personsOf st, q ∈ S) :
    FastCrossing.slowest_l_to_b (mapState f st) =
      Except.ok (mapState f st2) := by
  by_cases hl : st.lb.people = []
  · have : st.lb.slowest = Except.error
        (CrossErr.assertFail "slowest on empty area") := by
      simp [Area.slowest, hl, exThrow]
    simp only [FastCrossing.slowest_l_to_b] at hok
    rw [this, exBind_err] at hok
    exact Except.noConfusion hok
  · obtain ⟨q, hfq, hqm⟩ := slowest_ok hl
    simp only [FastCrossing.slowest_l_to_b] at hok ⊢
    rw [hfq, exBind_ok] at hok
    have hqS : q ∈ S := hsub q (mem_personsOf_lb hqm)
    rw [show (mapState f st).lb.slowest = Except.ok (f q) from by
      rw [show (mapState f st).lb = mapArea f st.lb from rfl,
        slowest_map, hfq, exMap_ok], exBind_ok]
    exact l_to_b_map_ok hf hok hsub hqS

theorem slowest_l_to_b_mem_ok {st st2 : CrossingState}
    (hok : FastCrossing.slowest_l_to_b st = Except.ok st2) :
    ∀ q ∈ personsOf st2, q ∈ personsOf st := by
  by_cases hl : st.lb.people = []
  · have : st.lb.slowest = Except.error
        (CrossErr.assertFail "slowest on empty area") := by
      simp [Area.slowest, hl, exThrow]
    simp only [FastCrossing.slowest_l_to_b] at hok
    rw [this, exBind_err] at hok
    exact Except.noConfusion hok
  · obtain ⟨q, hfq, hqm⟩ := slowest_ok hl
    simp only [FastCrossing.slowest_l_to_b] at hok
    rw [hfq, exBind_ok] at hok
    intro r hr
    rcases l_to_b_mem_ok hok r hr with rfl | hr
    · exact mem_personsOf_lb hqm
    · exact hr

theorem fastest_r_to_b_map_ok {S : List Person} {f : Person → Person}
    (hf : OrdEmb S f) {st st2 : CrossingState}
    (hok : FastCrossing.fastest_r_to_b st = Except.ok st2)
    (hsub : ∀ q ∈ personsOf st, q ∈ S) :
    FastCrossing.fastest_r_to_b (mapState f st) =
      Except.ok (mapState f st2) := by
  cases hl : st.rb.people with
  | nil =>
    have : st.rb.fastest = Except.error
        (CrossErr.assertFail "fastest on empty area") := by
      simp [Area.fastest, hl, exThrow]
    simp only [FastCrossing.fastest_r_to_b] at hok
    rw [this, exBind_err] at hok
    exact Except.noConfusion hok
  | cons q qs =>
    have hfq : st.rb.fastest = Except.ok q := by
      simp [Area.fastest, hl, exPure]
    simp only [FastCrossing.fastest_r_to_b] at hok ⊢
    rw [hfq, exBind_ok] at hok
    have hqS : q ∈ S := hsub q (mem_personsOf_rb (by simp [hl]))
    rw [show (mapState f st).rb.fastest = Except.ok (f q) from by
      rw [show (mapState f st).rb = mapArea f st.rb from rfl,
        fastest_map, hfq, exMap_ok], exBind_ok]
    exact r_to_b_map_ok hf hok hsub hqS

theorem fastest_r_to_b_mem_ok {st st2 : CrossingState}
    (hok : FastCrossing.fastest_r_to_b st = Except.ok st2) :
    ∀ q ∈ personsOf st2, q ∈ personsOf st := by
  cases hl : st.rb.people with
  | nil =>
    have : st.rb.fastest = Except.error
        (CrossErr.assertFail "fastest on empty area") := by
      simp [Area.fastest, hl, exThrow]
    simp only [FastCrossing.fastest_r_to_b] at hok
    rw [this, exBind_err] at hok
    exact Except.noConfusion hok
  | cons q qs =>
    have hfq : st.rb.fastest = Except.ok q := by
      simp [Area.fastest, hl, exPure]
    simp only [FastCrossing.fastest_r_to_b] at hok
    rw [hfq, exBind_ok] at hok
    intro r hr
    rcases r_to_b_mem_ok hok r hr with rfl | hr
    · exact mem_personsOf_rb (by simp [hl])
    · exact hr

theorem retrieve_fastest_map_ok {S : List Person} {f : Person → Person}
    (hf : OrdEmb S f) {st : CrossingState} {hist : List CrossingState}
    {res : CrossingState × List CrossingState}
    (hok : FastCrossing.retrieve_fastest st hist = Except.ok res)
    (hsub : ∀ q ∈ personsOf st, q ∈ S) :
    FastCrossing.retrieve_fastest (mapState f st)
        (hist.map (mapState f)) =
      Except.ok (mapState f res.1, res.2.map (mapState f)) ∧
    (∀ q ∈ personsOf res.1, q ∈ personsOf st) := by
  cases h1 : FastCrossing.fastest_r_to_b st with
  | error e =>
    simp only [FastCrossing.retrieve_fastest] at hok
    rw [h1, exBind_err] at hok
    exact Except.noConfusion hok
  | ok stA =>
    cases h2 : stA.all_b_to_l with
    | error e =>
      simp only [FastCrossing.retrieve_fastest] at hok
      rw [h1, exBind_ok, h2, exBind_err] at hok
      exact Except.noConfusion hok
    | ok stB =>
      simp only [FastCrossing.retrieve_fastest] at hok ⊢
      rw [h1, exBind_ok, h2, exBind_ok, exPure] at hok
      simp only [Except.ok.injEq] at hok
      subst hok
      have hmemA : ∀ q ∈ personsOf stA, q ∈ personsOf st :=
        fastest_r_to_b_mem_ok h1
      have hsubA : ∀ q ∈ personsOf stA, q ∈ S :=
        fun q hq => hsub q (hmemA q hq)
      have hm1 := fastest_r_to_b_map_ok hf h1 hsub
      have hm2 := all_b_to_l_map_ok hf h2 hsubA
      constructor
      · rw [hm1, exBind_ok, hm2, exBind_ok, exPure]
        simp [List.map_append]
      · intro q hq
        exact hmemA _ (all_b_to_l_mem_ok h2 q hq)

theorem send_slowest_map_ok {S : List Person} {f : Person → Person}
    (hf : OrdEmb S f) {st : CrossingState} {hist : List CrossingState}
    {res : CrossingState × List CrossingState}
    (hok : FastCrossing.send_slowest st hist = Except.ok res)
    (hsub : ∀ q ∈ personsOf st, q ∈ S) :
    FastCrossing.send_slowest (mapState f st)
        (hist.map (mapState f)) =
      Except.ok (mapState f res.1, res.2.map (mapState f)) ∧
    (∀ q ∈ personsOf res.1, q ∈ personsOf st) := by
  cases h1 : FastCrossing.slowest_l_to_b st with
  | error e =>
    simp only [FastCrossing.send_slowest] at hok
    rw [h1, exBind_err] at hok
    exact Except.noConfusion hok
  | ok stA =>
    cases h2 : FastCrossing.slowest_l_to_b stA with
    | error e =>
      simp only [FastCrossing.send_slowest] at hok
      rw [h1, exBind_ok, h2, exBind_err] at hok
      exact Except.noConfusion hok
    | ok stB =>
      cases h3 : stB.all_b_to_r with
      | error e =>
        simp only [FastCrossing.send_slowest] at hok
        rw [h1, exBind_ok, h2, exBind_ok, h3, exBind_err] at hok
        exact Except.noConfusion hok
      | ok stC =>
        simp only [FastCrossing.send_slowest] at hok ⊢
        rw [h1, exBind_ok, h2, exBind_ok, h3, exBind_ok, exPure] at hok
        simp only [Except.ok.injEq] at hok
        subst hok
        have hmemA : ∀ q ∈ personsOf stA, q ∈ personsOf st :=
          slowest_l_to_b_mem_ok h1
        have hsubA : ∀ q ∈ personsOf stA, q ∈ S :=
          fun q hq => hsub q (hmemA q hq)
        have hmemB : ∀ q ∈ personsOf stB, q ∈ personsOf stA :=
          slowest_l_to_b_mem_ok h2
        have hsubB : ∀ q ∈ personsOf stB, q ∈ S :=
          fun q hq => hsubA q (hmemB q hq)
        have hm1 := slowest_l_to_b_map_ok hf h1 hsub
        have hm2 := slowest_l_to_b_map_ok hf h2 hsubA
        have hm3 := all_b_to_r_map_ok hf h3 hsubB
        constructor
        · rw [hm1, exBind_ok, hm2, exBind_ok, hm3, exBind_ok, exPure]
          simp [List.map_append]
        · intro q hq
          exact hmemA _ (hmemB _ (all_b_to_r_mem_ok h3 q hq))

theorem crossLoop_map_ok {S : List Person} {f : Person → Person}
    (hf : OrdEmb S f) :
    ∀ (fuel : Nat) (st : CrossingState) (hist : List CrossingState)
      (res : CrossingState × List CrossingState),
    FastCrossing.crossLoop fuel st hist = Except.ok res →
    (∀ q ∈ personsOf st, q ∈ S) →
    FastCrossing.crossLoop fuel (mapState f st)
        (hist.map (mapState f)) =
      Except.ok (mapState f res.1, res.2.map (mapState f)) := by
  intro fuel
  induction fuel with
  | zero =>
    intro st hist res hok hsub
    by_cases hemp : st.lb.people = []
    · have h1 : st.lb.people.isEmpty = true := by
        simp [List.isEmpty_iff, hemp]
      have h1f : (mapState f st).lb.people.isEmpty = true := by
        simp [mapState, mapArea, List.isEmpty_iff, hemp]
      simp only [FastCrossing.crossLoop] at hok ⊢
      rw [if_pos h1, exPure] at hok
      simp only [Except.ok.injEq] at hok
      subst hok
      rw [if_pos h1f, exPure]
    · have h1 : ¬ (st.lb.people.isEmpty = true) := by
        simpa [List.isEmpty_iff] using hemp
      simp only [FastCrossing.crossLoop] at hok
      rw [if_neg h1, exThrow] at hok
      exact Except.noConfusion hok
  | succ n ih =>
    intro st hist res hok hsub
    by_cases hemp : st.lb.people = []
    · have h1 : st.lb.people.isEmpty = true := by
        simp [List.isEmpty_iff, hemp]
      have h1f : (mapState f st).lb.people.isEmpty = true := by
        simp [mapState, mapArea, List.isEmpty_iff, hemp]
      simp only [FastCrossing.crossLoop] at hok ⊢
      rw [if_pos h1, exPure] at hok
      simp only [Except.ok.injEq] at hok
      subst hok
      rw [if_pos h1f, exPure]
    · have h1 : ¬ (st.lb.people.isEmpty = true) := by
        simpa [List.isEmpty_iff] using hemp
      have h1f : ¬ ((mapState f st).lb.people.isEmpty = true) := by
        simpa [mapState, mapArea, List.isEmpty_iff] using hemp
      simp only [FastCrossing.crossLoop] at hok ⊢
      rw [if_neg h1] at hok
      rw [if_neg h1f]
      cases hs1 : FastCrossing.fastest_l_to_b st with
      | error e =>
        rw [hs1, exBind_err] at hok
        exact Except.noConfusion hok
      | ok st1 =>
        rw [hs1, exBind_ok] at hok
        have hsub1 : ∀ q ∈ personsOf st1, q ∈ S :=
          fun q hq => hsub q (fastest_l_to_b_mem_ok hs1 q hq)
        rw [fastest_l_to_b_map_ok hf hs1 hsub, exBind_ok]
        cases hs2 : FastCrossing.fastest_l_to_b st1 with
        | error e =>
          rw [hs2, exBind_err] at hok
          exact Except.noConfusion hok
        | ok st2 =>
          rw [hs2, exBind_ok] at hok
          have hsub2 : ∀ q ∈ personsOf st2, q ∈ S :=
            fun q hq => hsub1 q (fastest_l_to_b_mem_ok hs2 q hq)
          rw [fastest_l_to_b_map_ok hf hs2 hsub1, exBind_ok]
          cases hs3 : st2.all_b_to_r with
          | error e =>
            rw [hs3, exBind_err] at hok
            exact Except.noConfusion hok
          | ok st3 =>
            rw [hs3, exBind_ok] at hok
            have hsub3 : ∀ q ∈ personsOf st3, q ∈ S :=
              fun q hq => hsub2 q (all_b_to_r_mem_ok hs3 q hq)
            rw [all_b_to_r_map_ok hf hs3 hsub2, exBind_ok]
            by_cases hemp3 : st3.lb.people = []
            · have h3 : st3.lb.people.isEmpty = true := by
                simp [List.isEmpty_iff, hemp3]
              have h3f : (mapState f st3).lb.people.isEmpty = true := by
                simp [mapState, mapArea, List.isEmpty_iff, hemp3]
              rw [if_pos h3, exPure] at hok
              simp only [Except.ok.injEq] at hok
              subst hok
              rw [if_pos h3f, exPure]
              simp [List.map_append]
            · have h3 : ¬ (st3.lb.people.isEmpty = true) := by
                simpa [List.isEmpty_iff] using hemp3
              have h3f : ¬ ((mapState f st3).lb.people.isEmpty = true) := by
                simpa [mapState, mapArea, List.isEmpty_iff] using hemp3
              rw [if_neg h3] at hok
              rw [if_neg h3f]
              cases hr4 : FastCrossing.retrieve_fastest st3
                  ((hist ++ [st2]) ++ [st3]) with
              | error e =>
                rw [hr4, exBind_err] at hok
                exact Except.noConfusion hok
              | ok pr4 =>
                rw [hr4, exBind_ok] at hok
                obtain ⟨hm4, hmem4⟩ := retrieve_fastest_map_ok hf hr4 hsub3
                have hsub4 : ∀ q ∈ personsOf pr4.1, q ∈ S :=
                  fun q hq => hsub3 q (hmem4 q hq)
                simp only [List.map_append, List.map_cons,
                  List.map_nil] at hm4
                rw [hm4, exBind_ok]
                cases hs5 : FastCrossing.send_slowest pr4.1 pr4.2 with
                | error e =>
                  rw [hs5, exBind_err] at hok
                  exact Except.noConfusion hok
                | ok pr5 =>
                  rw [hs5, exBind_ok] at hok
                  obtain ⟨hm5, hmem5⟩ := send_slowest_map_ok hf hs5 hsub4
                  have hsub5 : ∀ q ∈ personsOf pr5.1, q ∈ S :=
                    fun q hq => hsub4 q (hmem5 q hq)
                  rw [hm5, exBind_ok]
                  by_cases hemp5 : pr5.1.lb.people = []
                  · have h5 : pr5.1.lb.people.isEmpty = true := by
                      simp [List.isEmpty_iff, hemp5]
                    have h5f : (mapState f pr5.1).lb.people.isEmpty =
                        true := by
                      simp [mapState, mapArea, List.isEmpty_iff, hemp5]
                    rw [if_pos h5, exPure] at hok
                    simp only [Except.ok.injEq] at hok
                    subst hok
                    rw [if_pos h5f, exPure]
                  · have h5 : ¬ (pr5.1.lb.people.isEmpty = true) := by
                      simpa [List.isEmpty_iff] using hemp5
                    have h5f : ¬ ((mapState f pr5.1).lb.people.isEmpty =
                        true) := by
                      simpa [mapState, mapArea, List.isEmpty_iff]
                        using hemp5
                    rw [if_neg h5] at hok
                    rw [if_neg h5f]
                    cases hr6 : FastCrossing.retrieve_fastest pr5.1
                        pr5.2 with
                    | error e =>
                      rw [hr6, exBind_err] at hok
                      exact Except.noConfusion hok
                    | ok pr6 =>
                      rw [hr6, exBind_ok] at hok
                      obtain ⟨hm6, hmem6⟩ :=
                        retrieve_fastest_map_ok hf hr6 hsub5
                      have hsub6 : ∀ q ∈ personsOf pr6.1, q ∈ S :=
                        fun q hq => hsub5 q (hmem6 q hq)
                      rw [hm6, exBind_ok]
                      exact ih pr6.1 pr6.2 res hok hsub6

theorem cross_map_ok {S : List Person} {f : Person → Person}
    (hf : OrdEmb S f) {st : CrossingState} {h : CrossingHistory}
    (hok : FastCrossing.cross st = Except.ok h)
    (hsub : ∀ q ∈ personsOf st, q ∈ S) :
    FastCrossing.cross (mapState f st) =
      Except.ok ⟨h.hist.map (mapState f)⟩ := by
  have hsz : (mapState f st).lb.size = st.lb.size := by
    simp [mapState, mapArea, Area.size]
  by_cases h0 : st.lb.size = 0
  · simp only [FastCrossing.cross] at hok ⊢
    rw [if_pos h0, exPure] at hok
    simp only [Except.ok.injEq] at hok
    subst hok
    rw [if_pos (by rw [hsz]; exact h0), exPure]
    rfl
  · by_cases h1 : st.lb.size = 1
    · simp only [FastCrossing.cross] at hok ⊢
      rw [if_neg h0, if_pos h1] at hok
      rw [if_neg (by rw [hsz]; exact h0), if_pos (by rw [hsz]; exact h1)]
      cases hs1 : FastCrossing.fastest_l_to_b st with
      | error e =>
        rw [hs1, exBind_err] at hok
        exact Except.noConfusion hok
      | ok st1 =>
        rw [hs1, exBind_ok] at hok
        have hsub1 : ∀ q ∈ personsOf st1, q ∈ S :=
          fun q hq => hsub q (fastest_l_to_b_mem_ok hs1 q hq)
        rw [fastest_l_to_b_map_ok hf hs1 hsub, exBind_ok]
        cases hs2 : st1.all_b_to_r with
        | error e =>
          rw [hs2, exBind_err] at hok
          exact Except.noConfusion hok
        | ok st2 =>
          rw [hs2, exBind_ok, exPure] at hok
          simp only [Except.ok.injEq] at hok
          subst hok
          rw [all_b_to_r_map_ok hf hs2 hsub1, exBind_ok, exPure]
          simp [List.map_append]
    · simp only [FastCrossing.cross] at hok ⊢
      rw [if_neg h0, if_neg h1] at hok
      rw [if_neg (by rw [hsz]; exact h0), if_neg (by rw [hsz]; exact h1)]
      cases hcl : FastCrossing.crossLoop st.lb.size st [st] with
      | error e =>
        rw [hcl, exBind_err] at hok
        exact Except.noConfusion hok
      | ok pr =>
        rw [hcl, exBind_ok, exPure] at hok
        simp only [Except.ok.injEq] at hok
        subst hok
        have hm := crossLoop_map_ok hf st.lb.size st [st] pr hcl hsub
        simp only [List.map_cons, List.map_nil] at hm
        rw [hsz, hm, exBind_ok, exPure]

theorem forall2_map_self {R : CrossingState → CrossingState → Prop}
    (f : CrossingState → CrossingState) :
    ∀ l : List CrossingState, (∀ a ∈ l, R a (f a)) →
      List.Forall₂ R l (l.map f) := by
  intro l
  induction l with
  | nil => intro _; simp
  | cons a as ih =>
    intro hl
    simp only [List.map_cons]
    exact List.Forall₂.cons (hl a (by simp))
      (ih (fun b hb => hl b (by simp [hb])))

theorem mem_of_getLast?_person {l : List Person} {p : Person}
    (h : l.getLast? = some p) : p ∈ l := by
  have hne : l ≠ [] := by rintro rfl; simp at h
  have h2 := List.getLast?_eq_getLast l hne
  rw [h2] at h
  exact (Option.some.injEq _ _).mp h ▸ List.getLast_mem hne

theorem speed_map_eq {f : Person → Person} {s : CrossingState}
    (htime : ∀ q ∈ s.bridge.people, (f q).time = q.time) :
    (mapState f s).speed_across_bridge = s.speed_across_bridge := by
  simp only [CrossingState.speed_across_bridge, mapState, mapArea]
  rw [List.getLast?_map]
  cases hg : s.bridge.people.getLast? with
  | none => rfl
  | some p =>
    simp only [Option.map_some]
    exact htime p (mem_of_getLast?_person hg)

theorem total_time_map_eq {f : Person → Person} :
    ∀ (l : List CrossingState) (acc : ℚ),
    (∀ s ∈ l, (mapState f s).speed_across_bridge =
      s.speed_across_bridge) →
    (l.map (mapState f)).foldl (fun t c => t + c.speed_across_bridge)
      acc = l.foldl (fun t c => t + c.speed_across_bridge) acc := by
  intro l
  induction l with
  | nil => intro acc _; rfl
  | cons a as ih =>
    intro acc hl
    simp only [List.map_cons, List.foldl_cons]
    rw [hl a (by simp)]
    exact ih _ (fun s hs => hl s (by simp [hs]))

theorem pairwise_lt_get_iff {l : List Person} (hs : l.Pairwise personLt)
    (i j : Fin l.length) :
    personLt (l.get i) (l.get j) ↔ i.val < j.val := by
  constructor
  · intro h
    by_contra hc
    rcases Nat.lt_or_ge j.val i.val with hji | hij
    · exact personLt_asymm h (List.pairwise_iff_get.mp hs j i hji)
    · have hij2 : i = j := by
        apply Fin.ext
        omega
      subst hij2
      exact personLt_irrefl _ h
  · intro h
    exact List.pairwise_iff_get.mp hs i j h

theorem pair_fn_exists {l1 l2 : List Person}
    (hs1 : l1.Pairwise personLt) (hs2 : l2.Pairwise personLt)
    (hids : l1.map Person.ID = l2.map Person.ID) :
    ∃ f : Person → Person, l1.map f = l2 ∧ OrdEmb l1 f ∧
      (∀ p ∈ l1, (f p).ID = p.ID) ∧
      (List.Forall₂ (fun a b => a.time = b.time) l1 l2 →
        ∀ p ∈ l1, (f p).time = p.time) := by
  have hlen : l1.length = l2.length := by
    have := congrArg List.length hids
    simpa using this
  have hnd : l1.Nodup := nodup_of_pairwise_lt hs1
  refine ⟨fun p => if hp : List.indexOf p l1 < l2.length then
    l2.get ⟨List.indexOf p l1, hp⟩ else p, ?_, ?_, ?_, ?_⟩
  · refine List.ext_get (by simp [hlen]) ?_
    intro n h1 h2
    have hn1 : n < l1.length := by simpa using h1
    have hidx : List.indexOf (l1.get ⟨n, hn1⟩) l1 = n := by
      have := List.indexOf_getElem hnd n hn1
      simpa [List.get_eq_getElem] using this
    rw [List.get_map]
    simp only [hidx]
    rw [dif_pos (by rw [← hlen]; exact hn1)]
  · intro p hp q hq
    have hip : List.indexOf p l1 < l1.length :=
      List.indexOf_lt_length.mpr hp
    have hiq : List.indexOf q l1 < l1.length :=
      List.indexOf_lt_length.mpr hq
    have hgp : l1.get ⟨List.indexOf p l1, hip⟩ = p := List.indexOf_get hip
    have hgq : l1.get ⟨List.indexOf q l1, hiq⟩ = q := List.indexOf_get hiq
    beta_reduce
    rw [dif_pos (by rw [← hlen]; exact hip),
      dif_pos (by rw [← hlen]; exact hiq)]
    rw [pairwise_lt_get_iff hs2]
    conv_rhs => rw [← hgp, ← hgq]
    rw [pairwise_lt_get_iff hs1]
  · intro p hp
    have hip : List.indexOf p l1 < l1.length :=
      List.indexOf_lt_length.mpr hp
    have hgp : l1.get ⟨List.indexOf p l1, hip⟩ = p := List.indexOf_get hip
    beta_reduce
    rw [dif_pos (by rw [← hlen]; exact hip)]
    have hpt : ∀ (n : Nat) (h1 : n < l1.length) (h2 : n < l2.length),
        (l1.get ⟨n, h1⟩).ID = (l2.get ⟨n, h2⟩).ID := by
      intro n h1 h2
      have hq := congrArg (fun l => l[n]?) hids
      simp only [List.getElem?_map] at hq
      rw [List.getElem?_eq_getElem (by simpa using h1),
        List.getElem?_eq_getElem (by simpa using h2)] at hq
      simpa [List.get_eq_getElem] using hq
    have hfin := hpt (List.indexOf p l1) hip (by rw [← hlen]; exact hip)
    rw [hgp] at hfin
    exact hfin.symm
  · intro htimes p hp
    have hip : List.indexOf p l1 < l1.length :=
      List.indexOf_lt_length.mpr hp
    have hgp : l1.get ⟨List.indexOf p l1, hip⟩ = p := List.indexOf_get hip
    beta_reduce
    rw [dif_pos (by rw [← hlen]; exact hip)]
    have := (List.forall₂_iff_get.mp htimes).2 (List.indexOf p l1) hip
      (by rw [← hlen]; exact hip)
    rw [hgp] at this
    exact this.symm

theorem areaEqCpp_map_self {f : Person → Person} {a : Area}
    (hid : ∀ q ∈ a.people, (f q).ID = q.ID) :
    areaEqCpp a (mapArea f a) = true := by
  have : areaEqCpp ⟨a.people⟩ ⟨a.people.map f⟩ = true := by
    rw [areaEqCpp_iff_aux, List.map_map]
    exact List.map_congr_left (fun q hq => (hid q hq).symm)
  exact this

theorem stateEqCpp_map_self {f : Person → Person} {s : CrossingState}
    (hid : ∀ q ∈ personsOf s, (f q).ID = q.ID) :
    stateEqCpp s (mapState f s) = true := by
  simp only [stateEqCpp, Bool.and_eq_true]
  exact ⟨⟨areaEqCpp_map_self
      (fun q hq => hid q (mem_personsOf_lb hq)),
    areaEqCpp_map_self (fun q hq => hid q (mem_personsOf_bridge hq))⟩,
    areaEqCpp_map_self (fun q hq => hid q (mem_personsOf_rb hq))⟩

/-- C6 counterexample: the two singleton initial states holding the same
person ID with crossing times 5 and 7 are structurally equal under the
program's operator== (which ignores times), but running the greedy
strategy yields total time 5 on one and 7 on the other, refuting the
claim that structurally-equal initial states give logs with the same
total time. -/
theorem C6_determinism_counterexample :
    stateEqCpp ⟨⟨[⟨"A", 1, 5⟩]⟩, ⟨[]⟩, ⟨[]⟩⟩
      ⟨⟨[⟨"A", 1, 7⟩]⟩, ⟨[]⟩, ⟨[]⟩⟩ = true ∧
    FastCrossing.cross ⟨⟨[⟨"A", 1, 5⟩]⟩, ⟨[]⟩, ⟨[]⟩⟩ =
      Except.ok ⟨[⟨⟨[⟨"A", 1, 5⟩]⟩, ⟨[]⟩, ⟨[]⟩⟩,
        ⟨⟨[]⟩, ⟨[⟨"A", 1, 5⟩]⟩, ⟨[]⟩⟩, ⟨⟨[]⟩, ⟨[]⟩, ⟨[⟨"A", 1, 5⟩]⟩⟩]⟩ ∧
    FastCrossing.cross ⟨⟨[⟨"A", 1, 7⟩]⟩, ⟨[]⟩, ⟨[]⟩⟩ =
      Except.ok ⟨[⟨⟨[⟨"A", 1, 7⟩]⟩, ⟨[]⟩, ⟨[]⟩⟩,
        ⟨⟨[]⟩, ⟨[⟨"A", 1, 7⟩]⟩, ⟨[]⟩⟩, ⟨⟨[]⟩, ⟨[]⟩, ⟨[⟨"A", 1, 7⟩]⟩⟩]⟩ ∧
    CrossingHistory.total_time ⟨[⟨⟨[⟨"A", 1, 5⟩]⟩, ⟨[]⟩, ⟨[]⟩⟩,
      ⟨⟨[]⟩, ⟨[⟨"A", 1, 5⟩]⟩, ⟨[]⟩⟩,
      ⟨⟨[]⟩, ⟨[]⟩, ⟨[⟨"A", 1, 5⟩]⟩⟩]⟩ = 5 ∧
    CrossingHistory.total_time ⟨[⟨⟨[⟨"A", 1, 7⟩]⟩, ⟨[]⟩, ⟨[]⟩⟩,
      ⟨⟨[]⟩, ⟨[⟨"A", 1, 7⟩]⟩, ⟨[]⟩⟩,
      ⟨⟨[]⟩, ⟨[]⟩, ⟨[⟨"A", 1, 7⟩]⟩⟩]⟩ = 7 ∧
    (5 : ℚ) ≠ 7 := by
  refine ⟨by decide, by rfl, by rfl, ?_, ?_, by norm_num⟩
  · rw [total_time_eq_foldl]
    have hd : historyDurations ⟨[⟨⟨[⟨"A", 1, 5⟩]⟩, ⟨[]⟩, ⟨[]⟩⟩,
        ⟨⟨[]⟩, ⟨[⟨"A", 1, 5⟩]⟩, ⟨[]⟩⟩,
        ⟨⟨[]⟩, ⟨[]⟩, ⟨[⟨"A", 1, 5⟩]⟩⟩]⟩ = [0, 5, 0] := by rfl
    rw [hd]
    norm_num
  · rw [total_time_eq_foldl]
    have hd : historyDurations ⟨[⟨⟨[⟨"A", 1, 7⟩]⟩, ⟨[]⟩, ⟨[]⟩⟩,
        ⟨⟨[]⟩, ⟨[⟨"A", 1, 7⟩]⟩, ⟨[]⟩⟩,
        ⟨⟨[]⟩, ⟨[]⟩, ⟨[⟨"A", 1, 7⟩]⟩⟩]⟩ = [0, 7, 0] := by rfl
    rw [hd]
    norm_num

/-- C6 amended: running the greedy strategy on two structurally-equal
well-formed initial states (equality as defined by the program, which
compares the speed-sorted banks elementwise by ID and ignores names and
times) produces logs of the same length whose snapshots are pairwise
structurally equal; the total times, which depend on the crossing times
that structural equality ignores, agree whenever the corresponding
participants also have equal crossing times (and can differ otherwise,
as the counterexample shows).  The strategy is deterministic: the log is
a function of the initial state alone. -/
theorem C6_structural_determinism (s1 s2 : CrossingState)
    (hWF1 : WFInit s1) (hWF2 : WFInit s2)
    (heq : stateEqCpp s1 s2 = true) :
    ∃ h1 h2, FastCrossing.cross s1 = Except.ok h1 ∧
      FastCrossing.cross s2 = Except.ok h2 ∧
      h1.hist.length = h2.hist.length ∧
      List.Forall₂ (fun a b => stateEqCpp a b = true) h1.hist h2.hist ∧
      (List.Forall₂ (fun a b => a.time = b.time)
          s1.lb.people s2.lb.people →
        h1.total_time = h2.total_time) := by
  have hlbeq : s1.lb.people.map Person.ID =
      s2.lb.people.map Person.ID := by
    simp only [stateEqCpp, Bool.and_eq_true] at heq
    exact (areaEqCpp_iff_aux s1.lb.people s2.lb.people).mp heq.1.1
  obtain ⟨f, hmap, hOrd, hID, htimesf⟩ :=
    pair_fn_exists hWF1.1 hWF2.1 hlbeq
  have hs2 : mapState f s1 = s2 := by
    obtain ⟨⟨l1⟩, ⟨b1⟩, ⟨r1⟩⟩ := s1
    obtain ⟨⟨l2⟩, ⟨b2⟩, ⟨r2⟩⟩ := s2
    have hb1 : b1 = [] := hWF1.2.1
    have hr1 : r1 = [] := hWF1.2.2
    have hb2 : b2 = [] := hWF2.2.1
    have hr2 : r2 = [] := hWF2.2.2
    subst hb1 hr1 hb2 hr2
    simp only [mapState, mapArea, List.map_nil]
    have hmap2 : List.map f l1 = l2 := hmap
    rw [hmap2]
  obtain ⟨h1, hok1, hhead1, hsnap1, _⟩ := cross_spec hWF1
  have hsub : ∀ q ∈ personsOf s1, q ∈ s1.lb.people := by
    intro q hq
    simp only [personsOf, hWF1.2.1, hWF1.2.2, List.append_nil,
      List.nil_append] at hq
    exact hq
  have hok2 : FastCrossing.cross s2 =
      Except.ok ⟨h1.hist.map (mapState f)⟩ := by
    rw [← hs2]
    exact cross_map_ok hOrd hok1 hsub
  refine ⟨h1, ⟨h1.hist.map (mapState f)⟩, hok1, hok2, by simp, ?_, ?_⟩
  · apply forall2_map_self
    intro s hs
    apply stateEqCpp_map_self
    intro q hq
    exact hID q ((hsnap1 s hs).2.mem_iff.mp hq)
  · intro htimes
    have htimeP := htimesf htimes
    have hspeeds : ∀ s ∈ h1.hist,
        (mapState f s).speed_across_bridge = s.speed_across_bridge := by
      intro s hs
      apply speed_map_eq
      intro q hq
      exact htimeP q ((hsnap1 s hs).2.mem_iff.mp (mem_personsOf_bridge hq))
    show h1.total_time =
      CrossingHistory.total_time ⟨h1.hist.map (mapState f)⟩
    simp only [CrossingHistory.total_time]
    exact (total_time_map_eq h1.hist 0 hspeeds).symm

/-- Witness for the amended C6, at the canonical initial state compared
with itself. -/
theorem C6_structural_determinism_witness :
    (WFInit canonicalState ∧
      stateEqCpp canonicalState canonicalState = true) ∧
    ∃ h1 h2, FastCrossing.cross canonicalState = Except.ok h1 ∧
      FastCrossing.cross canonicalState = Except.ok h2 ∧
      h1.hist.length = h2.hist.length ∧
      List.Forall₂ (fun a b => stateEqCpp a b = true) h1.hist h2.hist ∧
      (List.Forall₂ (fun a b => a.time = b.time)
          canonicalState.lb.people canonicalState.lb.people →
        h1.total_time = h2.total_time) :=
  ⟨⟨by decide, by decide⟩,
    C6_structural_determinism canonicalState canonicalState
      (by decide) (by decide) (by decide)⟩
